import Mathlib

/-!
Verification of the Smart Campus Navigation System backend
(`campus-nav-python.py` and the Flask layer `campus-nav-api.py`).

The development shallowly embeds the backend:
* the fixed campus graph built by `CampusGraph.__init__`,
* the mutable `PathFinder` constraint state (blocked path pairs, hazard zones),
* the effective-weight function `_get_effective_weight`,
* the lazy-deletion Dijkstra loop `PathFinder.dijkstra` with early exit,
* `PathFinder.find_nearest_exit`, and the constraint mutators.

Machine reals: all Python floats reaching arithmetic are integer-valued
(traffic multipliers have one decimal digit and every base distance in the
graph is a multiple of ten, so every product `distance * multiplier` is an
exact integer and `round` returns it unchanged; all later sums are integer
sums).  We therefore store multipliers as integers scaled by ten and model
costs in `WithTop ℕ`, where `⊤` stands for Python's `float('inf')` sentinel.
-/

inductive NodeType
  | entrance | academic | lab | admin | facility | sports | residence
deriving DecidableEq, Repr

inductive TimeOfDay
  | morning | afternoon | evening
deriving DecidableEq, Repr, Fintype

/-- `TrafficMultiplier` from the source; each field keeps the float
multiplier scaled by ten (`1.5` is stored as `15`). -/
structure TrafficMultiplier where
  morning : ℕ
  afternoon : ℕ
  evening : ℕ
deriving DecidableEq, Repr

structure Connection where
  distance : ℕ
  traffic : TrafficMultiplier
deriving DecidableEq, Repr

/-- `Node` from the source.  `connections` keeps the Python dict as an
association list in insertion order. -/
structure Node where
  x : ℕ
  y : ℕ
  connections : List (String × Connection)
  node_type : NodeType
  icon : String
deriving DecidableEq, Repr

structure CampusGraph where
  nodes : List (String × Node)
  exit_points : List String
deriving DecidableEq, Repr

/-- The fixed node table built by `_initialize` + `_campus_graph` in
`CampusGraph`; distances and (scaled) multipliers are copied from the source. -/
def campusNodes : List (String × Node) := [
  ("Main Gate", {
    x := 100, y := 300,
    connections := [
      ("Library", ⟨150, ⟨15, 10, 12⟩⟩),
      ("Admin Block", ⟨200, ⟨18, 13, 10⟩⟩)],
    node_type := NodeType.entrance, icon := "🚪" }),
  ("Library", {
    x := 250, y := 250,
    connections := [
      ("Main Gate", ⟨150, ⟨15, 10, 12⟩⟩),
      ("Computer Lab", ⟨120, ⟨16, 14, 10⟩⟩)],
    node_type := NodeType.academic, icon := "📚" }),
  ("Computer Lab", {
    x := 400, y := 200,
    connections := [
      ("Library", ⟨120, ⟨16, 14, 10⟩⟩),
      ("Lecture Hall", ⟨100, ⟨17, 15, 10⟩⟩),
      ("Admin Block", ⟨150, ⟨14, 12, 10⟩⟩)],
    node_type := NodeType.lab, icon := "💻" }),
  ("Lecture Hall", {
    x := 550, y := 250,
    connections := [
      ("Computer Lab", ⟨100, ⟨17, 15, 10⟩⟩),
      ("Sports Complex", ⟨200, ⟨10, 13, 16⟩⟩),
      ("Cafeteria", ⟨160, ⟨13, 18, 14⟩⟩)],
    node_type := NodeType.academic, icon := "🎓" }),
  ("Admin Block", {
    x := 250, y := 400,
    connections := [
      ("Main Gate", ⟨200, ⟨18, 13, 10⟩⟩),
      ("Computer Lab", ⟨150, ⟨14, 12, 10⟩⟩),
      ("Cafeteria", ⟨100, ⟨15, 12, 10⟩⟩)],
    node_type := NodeType.admin, icon := "🏢" }),
  ("Cafeteria", {
    x := 400, y := 380,
    connections := [
      ("Admin Block", ⟨100, ⟨15, 12, 10⟩⟩),
      ("Lecture Hall", ⟨160, ⟨13, 18, 14⟩⟩),
      ("Auditorium", ⟨140, ⟨10, 12, 15⟩⟩)],
    node_type := NodeType.facility, icon := "☕" }),
  ("Sports Complex", {
    x := 700, y := 200,
    connections := [
      ("Lecture Hall", ⟨200, ⟨10, 13, 16⟩⟩),
      ("Auditorium", ⟨180, ⟨10, 14, 17⟩⟩)],
    node_type := NodeType.sports, icon := "⚽" }),
  ("Auditorium", {
    x := 600, y := 400,
    connections := [
      ("Cafeteria", ⟨140, ⟨10, 12, 15⟩⟩),
      ("Sports Complex", ⟨180, ⟨10, 14, 17⟩⟩),
      ("Hostel", ⟨150, ⟨12, 10, 13⟩⟩)],
    node_type := NodeType.facility, icon := "🎭" }),
  ("Hostel", {
    x := 750, y := 380,
    connections := [
      ("Auditorium", ⟨150, ⟨12, 10, 13⟩⟩),
      ("Sports Complex", ⟨220, ⟨10, 11, 14⟩⟩)],
    node_type := NodeType.residence, icon := "🏠" })]

/-- The single graph value constructed by `CampusGraph.__init__`. -/
def campusGraph : CampusGraph :=
  { nodes := campusNodes, exit_points := ["Main Gate", "Sports Complex"] }

/-- `self.nodes.get(name)` on the association list. -/
def getNode (g : CampusGraph) (name : String) : Option Node :=
  (g.nodes.find? (fun p => p.1 == name)).map (fun p => p.2)

/-- Dictionary lookup inside a node's `connections`. -/
def lookupConn (conns : List (String × Connection)) (name : String) : Option Connection :=
  (conns.find? (fun p => p.1 == name)).map (fun p => p.2)

/-- `graph.nodes[u].connections[v]` with both `get` failures collapsed to
`none`, as in the source's existence check. -/
def getConn (g : CampusGraph) (u v : String) : Option Connection :=
  match getNode g u with
  | none => none
  | some node => lookupConn node.connections v

/-- Neighbor iteration order of `for neighbor in node.connections`. -/
def adjOf (g : CampusGraph) (u : String) : List String :=
  match getNode g u with
  | none => []
  | some node => node.connections.map (fun p => p.1)

/-- `get_all_nodes`: the node-name list in declaration order. -/
def campusNodeNames : List String := campusNodes.map (fun p => p.1)

/-- All directed edges `(u, v, connection)` of the campus graph. -/
def campusEdges : List (String × String × Connection) :=
  campusNodes.flatMap (fun p => p.2.connections.map (fun q => (p.1, q.1, q.2)))

/-- `TrafficMultiplier.select tm t` is the multiplier chosen by the source's
`if time_of_day == MORNING ... elif ... else` cascade. -/
def TrafficMultiplier.select (tm : TrafficMultiplier) (t : TimeOfDay) : ℕ :=
  match t with
  | .morning => tm.morning
  | .afternoon => tm.afternoon
  | .evening => tm.evening

/-- Python's `round` applied to the exact rational `n / 10`
(round-half-to-even).  All values reaching `round` in the source are exact
multiples of ten divided by ten, so this matches the float computation. -/
def pyRound10 (n : ℕ) : ℕ :=
  if n % 10 < 5 then n / 10
  else if 5 < n % 10 then n / 10 + 1
  else if n / 10 % 2 = 0 then n / 10 else n / 10 + 1

/-- Round-half-up of `n / 10`, as the specification describes the rounding. -/
def roundHalfUp10 (n : ℕ) : ℕ := (n + 5) / 10

/-- The mutable `PathFinder` state: the graph reference plus the two
constraint sets. -/
structure PathFinder where
  graph : CampusGraph
  blocked_paths : Finset (String × String)
  hazard_zones : Finset String

/-- Lexicographic comparison of code-point sequences: exactly Python's
string `<`, written structurally so that it evaluates by unfolding. -/
def charsLt : List Char → List Char → Bool
  | _, [] => false
  | [], _ :: _ => true
  | a :: as, b :: bs => if a < b then true else if b < a then false else charsLt as bs

/-- Python's `<` on strings. -/
def strLt (a b : String) : Bool := charsLt a.data b.data

/-- `tuple(sorted([node1, node2]))`: the unordered blocked-pair key. -/
def pathKey (a b : String) : String × String :=
  if strLt b a then (b, a) else (a, b)

/-- `PathFinder.block_path`. -/
def block_path (pf : PathFinder) (node1 node2 : String) : PathFinder :=
  { pf with blocked_paths := insert (pathKey node1 node2) pf.blocked_paths }

/-- `PathFinder.unblock_path`. -/
def unblock_path (pf : PathFinder) (node1 node2 : String) : PathFinder :=
  { pf with blocked_paths := pf.blocked_paths.erase (pathKey node1 node2) }

/-- `PathFinder.add_hazard_zone`: silently ignores exit points. -/
def add_hazard_zone (pf : PathFinder) (node : String) : PathFinder :=
  if node ∉ pf.graph.exit_points then
    { pf with hazard_zones := insert node pf.hazard_zones }
  else pf

/-- `PathFinder.remove_hazard_zone`. -/
def remove_hazard_zone (pf : PathFinder) (node : String) : PathFinder :=
  { pf with hazard_zones := pf.hazard_zones.erase node }

/-- `PathFinder.clear_hazards`. -/
def clear_hazards (pf : PathFinder) : PathFinder :=
  { pf with hazard_zones := ∅ }

/-- The `/api/reset` handler body: clears both constraint sets. -/
def reset_state (pf : PathFinder) : PathFinder :=
  { pf with blocked_paths := ∅, hazard_zones := ∅ }

/-- The `PathFinder` produced by `PathFinder(CampusGraph())`. -/
def initialPathFinder : PathFinder :=
  { graph := campusGraph, blocked_paths := ∅, hazard_zones := ∅ }

/-- `PathFinder._get_effective_weight` (leading underscore dropped):
blocked check, existence check, then emergency or traffic-scaled cost. -/
def get_effective_weight (pf : PathFinder) (from_node to_node : String)
    (time_of_day : TimeOfDay) (emergency_mode : Bool) : WithTop ℕ :=
  if pathKey from_node to_node ∈ pf.blocked_paths then ⊤
  else
    match getConn pf.graph from_node to_node with
    | none => ⊤
    | some connection =>
      if emergency_mode then
        ((connection.distance
          + (if from_node ∈ pf.hazard_zones then 500 else 0)
          + (if to_node ∈ pf.hazard_zones then 500 else 0) : ℕ) : WithTop ℕ)
      else
        ((pyRound10 (connection.distance
          * connection.traffic.select time_of_day) : ℕ) : WithTop ℕ)

/-! ### The Dijkstra loop -/

inductive StepType
  | init | visit | found | relax
deriving DecidableEq, Repr

/-- One step-trace record.  The human-readable `message`/`description`
strings of the source are display-only and elided. -/
structure Step where
  type : StepType
  current : Option String
  neighbor : Option String
  distances : String → WithTop ℕ

/-- The loop state of `PathFinder.dijkstra`: the `distances` and `previous`
dicts (as total maps), the `visited` set (in insertion order), the heap
contents, and the step list. -/
structure DState where
  dist : String → WithTop ℕ
  prev : String → Option String
  visited : List String
  pq : List (WithTop ℕ × String)
  steps : List Step

/-- Heap order of Python tuples `(distance, node)`: lexicographic. -/
def entryLt (a b : WithTop ℕ × String) : Prop :=
  a.1 < b.1 ∨ (a.1 = b.1 ∧ strLt a.2 b.2 = true)

instance (a b : WithTop ℕ × String) : Decidable (entryLt a b) :=
  inferInstanceAs (Decidable (a.1 < b.1 ∨ (a.1 = b.1 ∧ strLt a.2 b.2 = true)))

/-- `heapq.heappop`: removes a least entry in the tuple order (the leftmost
least entry; equal tuples are indistinguishable). -/
def popMin : List (WithTop ℕ × String) →
    Option ((WithTop ℕ × String) × List (WithTop ℕ × String))
  | [] => none
  | e :: es =>
    let m := es.foldl (fun acc x => if entryLt x acc then x else acc) e
    some (m, (e :: es).erase m)

/-- The `relax` trace record (emitted only when tracking). -/
def traceRelax (track : Bool) (current neighbor : String)
    (dists : String → WithTop ℕ) : List Step :=
  if track then
    [{ type := StepType.relax, current := some current, neighbor := some neighbor,
       distances := dists }]
  else []

/-- The `visit` trace record. -/
def traceVisit (track : Bool) (current : String)
    (dists : String → WithTop ℕ) : List Step :=
  if track then
    [{ type := StepType.visit, current := some current, neighbor := none,
       distances := dists }]
  else []

/-- The `found` trace record. -/
def traceFound (track : Bool) (current : String)
    (dists : String → WithTop ℕ) : List Step :=
  if track then
    [{ type := StepType.found, current := some current, neighbor := none,
       distances := dists }]
  else []

/-- The `init` trace record. -/
def traceInit (track : Bool) (dists : String → WithTop ℕ) : List Step :=
  if track then
    [{ type := StepType.init, current := none, neighbor := none,
       distances := dists }]
  else []

/-- Relaxation of one neighbor inside the `for neighbor in node.connections`
loop: skip visited neighbors, skip infinite edges, update on strict
improvement and push the new entry. -/
def relaxNeighbor (W : String → String → WithTop ℕ) (current : String)
    (track : Bool) (st : DState) (neighbor : String) : DState :=
  if neighbor ∈ st.visited then st
  else if W current neighbor = ⊤ then st
  else if st.dist current + W current neighbor < st.dist neighbor then
    { dist := fun n => if n = neighbor then st.dist current + W current neighbor
        else st.dist n
      prev := fun n => if n = neighbor then some current else st.prev n
      visited := st.visited
      pq := st.pq ++ [(st.dist current + W current neighbor, neighbor)]
      steps := st.steps ++ traceRelax track current neighbor
        (fun n => if n = neighbor then st.dist current + W current neighbor
          else st.dist n) }
  else st

/-- The `while pq:` loop, with fuel (the source loop terminates because each
finalized node is relaxed at most once; a fuel bound is proved below). -/
def dijkstraLoop (adj : String → List String) (W : String → String → WithTop ℕ)
    (endNode : String) (track : Bool) : ℕ → DState → DState
  | 0, st => st
  | fuel + 1, st =>
    match popMin st.pq with
    | none => st
    | some (e, rest) =>
      if e.2 ∈ st.visited then
        dijkstraLoop adj W endNode track fuel { st with pq := rest }
      else
        let stv : DState :=
          { st with
            pq := rest
            visited := st.visited ++ [e.2]
            steps := st.steps ++ traceVisit track e.2 st.dist }
        if e.2 = endNode then
          { stv with steps := stv.steps ++ traceFound track e.2 st.dist }
        else
          dijkstraLoop adj W endNode track fuel
            ((adj e.2).foldl (relaxNeighbor W e.2 track) stv)

/-- Path reconstruction: `while current is not None: path.insert(0, current)`. -/
def buildPath (prev : String → Option String) : ℕ → String → List String
  | 0, cur => [cur]
  | fuel + 1, cur =>
    match prev cur with
    | none => [cur]
    | some p => buildPath prev fuel p ++ [cur]

structure PathResult where
  path : List String
  distance : WithTop ℕ
  steps : List Step
  visited_nodes : List String

/-- Fuel bound for the loop: the campus graph has 9 nodes and 24 directed
edges, so at most 25 entries are ever pushed. -/
def dijkstraFuel : ℕ := 100

/-- `PathFinder.dijkstra`. -/
def dijkstra (pf : PathFinder) (start endNode : String) (time_of_day : TimeOfDay)
    (emergency_mode track_steps : Bool) : PathResult :=
  let W := fun u v => get_effective_weight pf u v time_of_day emergency_mode
  let dist0 : String → WithTop ℕ := fun n => if n = start then 0 else ⊤
  let init : DState :=
    { dist := dist0
      prev := fun _ => none
      visited := []
      pq := [(0, start)]
      steps := traceInit track_steps dist0 }
  let final := dijkstraLoop (adjOf pf.graph) W endNode track_steps dijkstraFuel init
  { path := buildPath final.prev dijkstraFuel endNode
    distance := final.dist endNode
    steps := final.steps
    visited_nodes := final.visited }

/-- `PathFinder.find_nearest_exit`: one emergency, trace-free engine run per
exit point in declaration order, keeping the strict minimum. -/
def find_nearest_exit (pf : PathFinder) (start : String) (time_of_day : TimeOfDay) :
    Option String × WithTop ℕ :=
  pf.graph.exit_points.foldl
    (fun acc exit_point =>
      let result := dijkstra pf start exit_point time_of_day true false
      if result.distance < acc.2 then (some exit_point, result.distance) else acc)
    (none, ⊤)

/-! ### Constraint-store operations and API wrappers -/

/-- The constraint-store mutators reachable through the API layer. -/
inductive ConstraintOp
  | block (a b : String)
  | unblock (a b : String)
  | markHazard (n : String)
  | unmarkHazard (n : String)
  | clearAllHazards
  | resetAll

def applyOp (pf : PathFinder) : ConstraintOp → PathFinder
  | .block a b => block_path pf a b
  | .unblock a b => unblock_path pf a b
  | .markHazard n => add_hazard_zone pf n
  | .unmarkHazard n => remove_hazard_zone pf n
  | .clearAllHazards => clear_hazards pf
  | .resetAll => reset_state pf

/-- The `/api/path` handler core: runs the query and performs no state
write (the handler only reads `path_finder`). -/
def api_find_path (pf : PathFinder) (start endNode : String) (t : TimeOfDay)
    (emergency_mode track_steps : Bool) : PathResult × PathFinder :=
  (dijkstra pf start endNode t emergency_mode track_steps, pf)

/-- The `/api/emergency/nearest-exit` handler core; also a pure read. -/
def api_nearest_exit (pf : PathFinder) (start : String) (t : TimeOfDay) :
    (Option String × WithTop ℕ) × PathFinder :=
  (find_nearest_exit pf start t, pf)

/-! ### Paths and walk costs -/

/-- Cost of a node sequence: the sum of the weight function over consecutive
pairs (`⊤` absorbs blocked or missing edges). -/
def pathCost (W : String → String → WithTop ℕ) : List String → WithTop ℕ
  | [] => 0
  | [_] => 0
  | a :: b :: rest => W a b + pathCost W (b :: rest)

/-- `p` is a sequence of locations leading from `s` to `t`. -/
def FromTo (p : List String) (s t : String) : Prop :=
  p.head? = some s ∧ p.getLast? = some t

/-- `p` stays on graph edges (consecutive nodes are stored neighbors). -/
def IsWalk (g : CampusGraph) (p : List String) : Prop :=
  List.Chain' (fun a b => b ∈ adjOf g a) p

/-! ### Dijkstra loop invariants -/

/-- Core invariant of the search state (holds throughout the loop). -/
structure DCore (W : String → String → WithTop ℕ) (src : String) (st : DState) : Prop where
  dist_src : st.dist src = 0
  prev_src : st.prev src = none
  prev_fin : ∀ v, v ≠ src → st.dist v ≠ ⊤ → st.prev v ≠ none
  pq_sound : ∀ q ∈ st.pq, st.dist q.2 ≤ q.1 ∧ q.1 ≠ ⊤
  active : ∀ v, v ∉ st.visited → st.dist v ≠ ⊤ → (st.dist v, v) ∈ st.pq
  reach : ∀ v, st.dist v ≠ ⊤ → ∃ p, FromTo p src v ∧ pathCost W p = st.dist v
  settled_lb : ∀ v ∈ st.visited, ∀ p, FromTo p src v → st.dist v ≤ pathCost W p
  prev_spec : ∀ v u, st.prev v = some u →
    u ∈ st.visited ∧ W u v ≠ ⊤ ∧ st.dist v = st.dist u + W u v ∧ st.dist v ≠ ⊤
  prev_idx : ∀ v u, st.prev v = some u → v ∈ st.visited →
    st.visited.indexOf u < st.visited.indexOf v
  nodup : st.visited.Nodup
  visited_fin : ∀ v ∈ st.visited, st.dist v ≠ ⊤
  settled_pq : ∀ v ∈ st.visited, ∀ q ∈ st.pq, st.dist v ≤ q.1

/-- Relaxation completeness: every settled node has propagated its edges. -/
def Frontier (W : String → String → WithTop ℕ) (st : DState) : Prop :=
  ∀ u ∈ st.visited, ∀ v, st.dist v ≤ st.dist u + W u v

def DInv (W : String → String → WithTop ℕ) (src : String) (st : DState) : Prop :=
  DCore W src st ∧ Frontier W st

/-- Invariant holding while the neighbors of the just-settled node `c` are
being relaxed. -/
structure RInv (W : String → String → WithTop ℕ) (src : String) (c : String)
    (st : DState) : Prop where
  core : DCore W src st
  frontier_ne : ∀ u ∈ st.visited, u ≠ c → ∀ v, st.dist v ≤ st.dist u + W u v
  c_mem : c ∈ st.visited
  le_c : ∀ v ∈ st.visited, st.dist v ≤ st.dist c

/-- Termination measure: pending queue entries plus, for each unsettled
graph node, one settling step and one push per outgoing edge. -/
def loopMeasure (adj : String → List String) (nodesF : Finset String) (st : DState) : ℕ :=
  st.pq.length + (nodesF.filter (fun v => v ∉ st.visited)).sum (fun v => 1 + (adj v).length)

/-- The initial state of a `dijkstra` run. -/
def dInit (s : String) (track : Bool) : DState :=
  { dist := fun n => if n = s then 0 else ⊤
    prev := fun _ => none
    visited := []
    pq := [((0 : WithTop ℕ), s)]
    steps := traceInit track (fun n => if n = s then 0 else ⊤) }

/-! ### Basic lemmas -/

theorem charsLt_asymm : ∀ {l₁ l₂ : List Char}, charsLt l₁ l₂ = true → charsLt l₂ l₁ = false := by
  intro l₁
  induction l₁ with
  | nil =>
    intro l₂ h
    cases l₂ with
    | nil => simp [charsLt] at h
    | cons b bs => simp [charsLt]
  | cons a as ih =>
    intro l₂ h
    cases l₂ with
    | nil => simp [charsLt] at h
    | cons b bs =>
      unfold charsLt at h ⊢
      by_cases h1 : a < b
      · rw [if_neg (asymm h1), if_pos h1]
      · rw [if_neg h1] at h
        by_cases h2 : b < a
        · rw [if_pos h2] at h
          exact absurd h (by simp)
        · rw [if_neg h2] at h
          rw [if_neg h2, if_neg h1]
          exact ih h

theorem charsLt_eq : ∀ {l₁ l₂ : List Char}, charsLt l₁ l₂ = false →
    charsLt l₂ l₁ = false → l₁ = l₂ := by
  intro l₁
  induction l₁ with
  | nil =>
    intro l₂ h1 h2
    cases l₂ with
    | nil => rfl
    | cons b bs => simp [charsLt] at h1
  | cons a as ih =>
    intro l₂ h1 h2
    cases l₂ with
    | nil => simp [charsLt] at h2
    | cons b bs =>
      unfold charsLt at h1 h2
      by_cases hab : a < b
      · rw [if_pos hab] at h1
        exact absurd h1 (by simp)
      · rw [if_neg hab] at h1
        by_cases hba : b < a
        · rw [if_pos hba] at h2
          exact absurd h2 (by simp)
        · rw [if_neg hba] at h1
          rw [if_neg hba, if_neg hab] at h2
          have hcab : a = b := le_antisymm (not_lt.1 hba) (not_lt.1 hab)
          rw [hcab, ih h1 h2]

theorem strLt_asymm {a b : String} (h : strLt a b = true) : strLt b a = false :=
  charsLt_asymm h

theorem strLt_eq {a b : String} (h1 : strLt a b = false) (h2 : strLt b a = false) :
    a = b := by
  cases a with
  | mk la =>
    cases b with
    | mk lb =>
      exact congrArg String.mk (charsLt_eq h1 h2)

theorem pathKey_comm (a b : String) : pathKey a b = pathKey b a := by
  unfold pathKey
  cases hab : strLt b a
  · cases hba : strLt a b
    · have heq := strLt_eq hba hab
      subst heq
      rfl
    · simp [hab, hba]
  · cases hba : strLt a b
    · simp [hab, hba]
    · exact absurd hba (by rw [strLt_asymm hab]; simp)

/-- Association-list lookup returns a stored pair. -/
theorem assoc_lookup_mem {α : Type} {l : List (String × α)} {u : String} {a : α}
    (h : (l.find? (fun p => p.1 == u)).map (fun p => p.2) = some a) : (u, a) ∈ l := by
  cases hf : l.find? (fun p => p.1 == u) with
  | none => rw [hf] at h; simp at h
  | some pr =>
    rw [hf] at h
    simp only [Option.map_some', Option.some.injEq] at h
    have h1 := List.find?_some hf
    have h2 : pr ∈ l := List.mem_of_find?_eq_some hf
    cases pr with
    | mk p1 p2 =>
      simp only [beq_iff_eq] at h1
      subst h1
      subst h
      exact h2

theorem getNode_mem {g : CampusGraph} {u : String} {nd : Node}
    (h : getNode g u = some nd) : (u, nd) ∈ g.nodes :=
  assoc_lookup_mem h

theorem lookupConn_mem {conns : List (String × Connection)} {v : String} {c : Connection}
    (h : lookupConn conns v = some c) : (v, c) ∈ conns :=
  assoc_lookup_mem h

theorem getNode_none {u : String} (h : u ∉ campusNodeNames) :
    getNode campusGraph u = none := by
  cases hg : getNode campusGraph u with
  | none => rfl
  | some nd =>
    exact absurd (List.mem_map_of_mem (fun p => p.1) (getNode_mem hg)) h

theorem adjOf_nil {u : String} (h : u ∉ campusNodeNames) :
    adjOf campusGraph u = [] := by
  unfold adjOf
  rw [getNode_none h]

theorem getConn_mem {u v : String} {c : Connection}
    (h : getConn campusGraph u v = some c) : (u, v, c) ∈ campusEdges := by
  unfold getConn at h
  cases hn : getNode campusGraph u with
  | none => rw [hn] at h; exact absurd h (by simp)
  | some nd =>
    rw [hn] at h
    have h1 : (u, nd) ∈ campusNodes := getNode_mem hn
    have h2 : (v, c) ∈ nd.connections := lookupConn_mem h
    exact List.mem_flatMap.2 ⟨(u, nd), h1, List.mem_map.2 ⟨(v, c), h2, rfl⟩⟩

/-- A finite effective weight certifies a stored connection and no block. -/
theorem weight_ne_top_elim {pf : PathFinder} {u v : String} {t : TimeOfDay} {em : Bool}
    (h : get_effective_weight pf u v t em ≠ ⊤) :
    pathKey u v ∉ pf.blocked_paths ∧ ∃ c, getConn pf.graph u v = some c ∧
      get_effective_weight pf u v t em =
        (if em then ((c.distance
            + (if u ∈ pf.hazard_zones then 500 else 0)
            + (if v ∈ pf.hazard_zones then 500 else 0) : ℕ) : WithTop ℕ)
          else ((pyRound10 (c.distance * c.traffic.select t) : ℕ) : WithTop ℕ)) := by
  by_cases hb : pathKey u v ∈ pf.blocked_paths
  · exact absurd (by unfold get_effective_weight; rw [if_pos hb]) h
  · refine ⟨hb, ?_⟩
    cases hc : getConn pf.graph u v with
    | none =>
      exact absurd (by unfold get_effective_weight; rw [if_neg hb, hc]) h
    | some c =>
      refine ⟨c, rfl, ?_⟩
      unfold get_effective_weight
      rw [if_neg hb, hc]

theorem weight_adjacent {pf : PathFinder} {u v : String} {t : TimeOfDay} {em : Bool}
    (h : get_effective_weight pf u v t em ≠ ⊤) : v ∈ adjOf pf.graph u := by
  obtain ⟨-, c, hc, -⟩ := weight_ne_top_elim h
  unfold getConn at hc
  unfold adjOf
  cases hn : getNode pf.graph u with
  | none => rw [hn] at hc; exact absurd hc (by simp)
  | some nd =>
    rw [hn] at hc
    exact List.mem_map.2 ⟨(v, c), lookupConn_mem hc, rfl⟩

/-- Every stored edge gives cost at least 100 in every mode (checked over
the 24 edges of the fixed graph). -/
theorem campus_edge_min :
    ∀ x ∈ campusEdges, ∀ t : TimeOfDay,
      100 ≤ pyRound10 (x.2.2.distance * x.2.2.traffic.select t) ∧
      100 ≤ x.2.2.distance := by decide

/-- On the campus graph, a finite effective weight is a natural of size at
least 100. -/
theorem weight_ge_100 {pf : PathFinder} {u v : String} {t : TimeOfDay} {em : Bool}
    (hg : pf.graph = campusGraph)
    (h : get_effective_weight pf u v t em ≠ ⊤) :
    ∃ k : ℕ, get_effective_weight pf u v t em = (k : WithTop ℕ) ∧ 100 ≤ k := by
  obtain ⟨-, c, hc, hval⟩ := weight_ne_top_elim h
  rw [hg] at hc
  have hedge := campus_edge_min (u, v, c) (getConn_mem hc) t
  have h1 : 100 ≤ pyRound10 (c.distance * c.traffic.select t) := by simpa using hedge.1
  have h2 : 100 ≤ c.distance := by simpa using hedge.2
  cases em with
  | false =>
    exact ⟨pyRound10 (c.distance * c.traffic.select t), by simpa using hval, h1⟩
  | true =>
    refine ⟨c.distance
      + (if u ∈ pf.hazard_zones then 500 else 0)
      + (if v ∈ pf.hazard_zones then 500 else 0), by simpa using hval, ?_⟩
    omega

/-! ### `popMin` lemmas -/

theorem entryLt_fst_le {a b : WithTop ℕ × String} (h : entryLt a b) : a.1 ≤ b.1 := by
  rcases h with h | ⟨h, -⟩
  · exact le_of_lt h
  · exact le_of_eq h

theorem not_entryLt_fst_le {a b : WithTop ℕ × String} (h : ¬ entryLt a b) : b.1 ≤ a.1 := by
  by_contra hlt
  exact h (Or.inl (lt_of_not_le hlt))

theorem foldlMin_mem (e : WithTop ℕ × String) (es : List (WithTop ℕ × String)) :
    es.foldl (fun acc x => if entryLt x acc then x else acc) e ∈ e :: es := by
  induction es generalizing e with
  | nil => simp [List.foldl]
  | cons x xs ih =>
    have h := ih (if entryLt x e then x else e)
    simp only [List.foldl_cons]
    rcases List.mem_cons.1 h with h' | h'
    · rw [h']
      by_cases hx : entryLt x e
      · simp [hx]
      · simp [hx]
    · exact List.mem_cons_of_mem _ (List.mem_cons_of_mem _ h')

theorem foldlMin_le (e : WithTop ℕ × String) (es : List (WithTop ℕ × String)) :
    ∀ x ∈ e :: es, (es.foldl (fun acc x => if entryLt x acc then x else acc) e).1 ≤ x.1 := by
  induction es generalizing e with
  | nil =>
    intro x hx
    rw [List.mem_singleton] at hx
    subst hx
    rfl
  | cons y ys ih =>
    intro x hx
    have hsel : (if entryLt y e then y else e).1 ≤ e.1 ∧
        (if entryLt y e then y else e).1 ≤ y.1 := by
      by_cases hy : entryLt y e
      · rw [if_pos hy]; exact ⟨entryLt_fst_le hy, le_refl _⟩
      · rw [if_neg hy]; exact ⟨le_refl _, not_entryLt_fst_le hy⟩
    have hm := ih (if entryLt y e then y else e)
    have hhead := hm _ (List.mem_cons_self _ _)
    simp only [List.foldl_cons]
    rcases List.mem_cons.1 hx with h' | h'
    · subst h'; exact le_trans hhead hsel.1
    · rcases List.mem_cons.1 h' with h'' | h''
      · subst h''; exact le_trans hhead hsel.2
      · exact hm _ (List.mem_cons_of_mem _ h'')

theorem popMin_nil_iff {l : List (WithTop ℕ × String)} : popMin l = none ↔ l = [] := by
  cases l with
  | nil => simp [popMin]
  | cons e es => simp [popMin]

theorem popMin_elim {l : List (WithTop ℕ × String)} {e : WithTop ℕ × String}
    {rest : List (WithTop ℕ × String)} (h : popMin l = some (e, rest)) :
    e ∈ l ∧ (∀ x ∈ l, e.1 ≤ x.1) ∧ rest = l.erase e := by
  cases l with
  | nil => simp [popMin] at h
  | cons a as =>
    simp only [popMin, Option.some.injEq, Prod.mk.injEq] at h
    obtain ⟨he, hrest⟩ := h
    subst he
    exact ⟨foldlMin_mem a as, foldlMin_le a as, hrest.symm⟩

theorem popMin_rest_sub {l : List (WithTop ℕ × String)} {e : WithTop ℕ × String}
    {rest : List (WithTop ℕ × String)} (h : popMin l = some (e, rest)) :
    ∀ x ∈ rest, x ∈ l := by
  obtain ⟨-, -, hr⟩ := popMin_elim h
  intro x hx
  rw [hr] at hx
  exact List.mem_of_mem_erase hx

theorem popMin_rest_of_ne {l : List (WithTop ℕ × String)} {e : WithTop ℕ × String}
    {rest : List (WithTop ℕ × String)} (h : popMin l = some (e, rest)) :
    ∀ x ∈ l, x ≠ e → x ∈ rest := by
  obtain ⟨-, -, hr⟩ := popMin_elim h
  intro x hx hne
  rw [hr]
  exact (List.mem_erase_of_ne hne).2 hx

theorem popMin_rest_length {l : List (WithTop ℕ × String)} {e : WithTop ℕ × String}
    {rest : List (WithTop ℕ × String)} (h : popMin l = some (e, rest)) :
    rest.length + 1 = l.length := by
  obtain ⟨hm, -, hr⟩ := popMin_elim h
  rw [hr, List.length_erase_of_mem hm]
  have : l.length ≠ 0 := by
    intro h0
    rw [List.length_eq_zero] at h0
    subst h0
    simp at hm
  omega

/-! ### `pathCost` and `FromTo` lemmas -/

theorem FromTo_ne_nil {p : List String} {s t : String} (h : FromTo p s t) : p ≠ [] := by
  intro h0
  subst h0
  simp [FromTo] at h

theorem FromTo_singleton {x s t : String} (h : FromTo [x] s t) : x = s ∧ x = t := by
  obtain ⟨h1, h2⟩ := h
  simp only [List.head?_cons, Option.some.injEq] at h1
  simp only [List.getLast?_singleton, Option.some.injEq] at h2
  exact ⟨h1, h2⟩

theorem FromTo_cons_cons {a b : String} {r : List String} {s t : String}
    (h : FromTo (a :: b :: r) s t) : a = s ∧ FromTo (b :: r) b t := by
  obtain ⟨h1, h2⟩ := h
  simp only [List.head?_cons, Option.some.injEq] at h1
  rw [List.getLast?_cons_cons] at h2
  exact ⟨h1, rfl, h2⟩

theorem FromTo_concat {p : List String} {s u : String} (v : String)
    (h : FromTo p s u) : FromTo (p ++ [v]) s v := by
  obtain ⟨h1, -⟩ := h
  constructor
  · cases p with
    | nil => simp at h1
    | cons a tl => simpa using h1
  · simp

theorem FromTo_self (s : String) : FromTo [s] s s := ⟨rfl, rfl⟩

theorem pathCost_concat {W : String → String → WithTop ℕ} {p : List String} {u : String}
    (v : String) (hp : p.getLast? = some u) :
    pathCost W (p ++ [v]) = pathCost W p + W u v := by
  induction p with
  | nil => simp at hp
  | cons a tl ih =>
    cases tl with
    | nil =>
      have ha : a = u := by simpa using hp
      rw [← ha]
      show W a v + 0 = 0 + W a v
      rw [add_zero, zero_add]
    | cons b rest =>
      rw [List.getLast?_cons_cons] at hp
      have ihb := ih hp
      show pathCost W (a :: b :: (rest ++ [v])) = pathCost W (a :: b :: rest) + W u v
      show W a b + pathCost W (b :: (rest ++ [v])) = (W a b + pathCost W (b :: rest)) + W u v
      have : (b :: rest) ++ [v] = b :: (rest ++ [v]) := by simp
      rw [← this, ihb, add_assoc]

theorem DCore.steps_irrel {W : String → String → WithTop ℕ} {src : String} {st : DState}
    (h : DCore W src st) (stps : List Step) : DCore W src { st with steps := stps } :=
  ⟨h.dist_src, h.prev_src, h.prev_fin, h.pq_sound, h.active, h.reach, h.settled_lb,
    h.prev_spec, h.prev_idx, h.nodup, h.visited_fin, h.settled_pq⟩

/-- Crossing argument: while `v` is unsettled, the minimum frontier value is
a lower bound on the cost of any route entering the unsettled region. -/
theorem crossing_lemma {W : String → String → WithTop ℕ} {src : String} {st : DState}
    (hc : DCore W src st) (hfr : Frontier W st) {d : WithTop ℕ}
    (hmin : ∀ q ∈ st.pq, d ≤ q.1) :
    ∀ p a v, FromTo p a v → a ∈ st.visited → v ∉ st.visited →
      d ≤ st.dist a + pathCost W p := by
  intro p
  induction p with
  | nil => intro a v hp; exact absurd rfl (FromTo_ne_nil hp)
  | cons x tl ih =>
    intro a v hp ha hv
    cases tl with
    | nil =>
      obtain ⟨h1, h2⟩ := FromTo_singleton hp
      subst h1
      subst h2
      exact absurd ha hv
    | cons b rest =>
      obtain ⟨hx, hp'⟩ := FromTo_cons_cons hp
      subst hx
      show d ≤ st.dist x + (W x b + pathCost W (b :: rest))
      by_cases hb : b ∈ st.visited
      · refine le_trans (ih b v hp' hb hv) ?_
        rw [← add_assoc]
        exact add_le_add_right (hfr x ha b) _
      · by_cases hdb : st.dist b = ⊤
        · have h1 : st.dist x + W x b = ⊤ := top_le_iff.1 (hdb ▸ hfr x ha b)
          rw [← add_assoc, h1, top_add]
          exact le_top
        · have hd : d ≤ st.dist b := hmin _ (hc.active b hb hdb)
          refine le_trans hd (le_trans (hfr x ha b) ?_)
          rw [← add_assoc]
          exact self_le_add_right _ _

/-- With an exhausted frontier, settled distances bound every continuation. -/
theorem exhausted_lb {W : String → String → WithTop ℕ} {src : String} {st : DState}
    (hc : DCore W src st) (hfr : Frontier W st) (hpq : st.pq = []) :
    ∀ p a v, FromTo p a v → a ∈ st.visited →
      st.dist v ≤ st.dist a + pathCost W p := by
  intro p
  induction p with
  | nil => intro a v hp; exact absurd rfl (FromTo_ne_nil hp)
  | cons x tl ih =>
    intro a v hp ha
    cases tl with
    | nil =>
      obtain ⟨h1, h2⟩ := FromTo_singleton hp
      subst h1
      subst h2
      show st.dist x ≤ st.dist x + 0
      rw [add_zero]
    | cons b rest =>
      obtain ⟨hx, hp'⟩ := FromTo_cons_cons hp
      subst hx
      show st.dist v ≤ st.dist x + (W x b + pathCost W (b :: rest))
      by_cases hdb : st.dist b = ⊤
      · have h1 : st.dist x + W x b = ⊤ := top_le_iff.1 (hdb ▸ hfr x ha b)
        rw [← add_assoc, h1, top_add]
        exact le_top
      · have hb : b ∈ st.visited := by
          by_contra hb
          have := hc.active b hb hdb
          rw [hpq] at this
          exact absurd this (List.not_mem_nil _)
        refine le_trans (ih b v hp' hb) ?_
        rw [← add_assoc]
        exact add_le_add_right (hfr x ha b) _

/-- The popped minimum bounds the cost of every route to an unsettled node. -/
theorem pop_lb {W : String → String → WithTop ℕ} {src : String} {st : DState}
    (hc : DCore W src st) (hfr : Frontier W st) {d : WithTop ℕ}
    (hmin : ∀ q ∈ st.pq, d ≤ q.1) {v : String} (hv : v ∉ st.visited) :
    ∀ p, FromTo p src v → d ≤ pathCost W p := by
  intro p hp
  by_cases hs : src ∈ st.visited
  · have h := crossing_lemma hc hfr hmin p src v hp hs hv
    rwa [hc.dist_src, zero_add] at h
  · have h0 : st.dist src ≠ ⊤ := by
      rw [hc.dist_src]
      exact WithTop.zero_ne_top
    have hmem := hc.active src hs h0
    rw [hc.dist_src] at hmem
    exact le_trans (hmin _ hmem) (zero_le _)

/-- Discarding a stale frontier entry preserves the invariant. -/
theorem skip_dinv {W : String → String → WithTop ℕ} {src : String} {st : DState}
    {e : WithTop ℕ × String} {rest : List (WithTop ℕ × String)}
    (h : DInv W src st) (hpop : popMin st.pq = some (e, rest))
    (hv : e.2 ∈ st.visited) : DInv W src { st with pq := rest } := by
  obtain ⟨hc, hfr⟩ := h
  refine ⟨⟨hc.dist_src, hc.prev_src, hc.prev_fin, ?_, ?_, hc.reach, hc.settled_lb,
    hc.prev_spec, hc.prev_idx, hc.nodup, hc.visited_fin, ?_⟩, ?_⟩
  · intro q hq
    exact hc.pq_sound q (popMin_rest_sub hpop q hq)
  · intro v hvv hd
    refine popMin_rest_of_ne hpop _ (hc.active v hvv hd) ?_
    intro heq
    exact hvv (by rw [show v = e.2 from congrArg Prod.snd heq]; exact hv)
  · intro v hvv q hq
    exact hc.settled_pq v hvv q (popMin_rest_sub hpop q hq)
  · intro u hu v
    exact hfr u hu v

/-- Settling the popped node: the new node enters `visited` with an optimal
distance, and the relaxation invariant holds. -/
theorem settle_rinv {W : String → String → WithTop ℕ} {src : String} {st : DState}
    {e : WithTop ℕ × String} {rest : List (WithTop ℕ × String)} (stps : List Step)
    (h : DInv W src st) (hpop : popMin st.pq = some (e, rest))
    (hnv : e.2 ∉ st.visited) :
    RInv W src e.2
      { st with pq := rest, visited := st.visited ++ [e.2], steps := stps }
    ∧ st.dist e.2 = e.1 := by
  obtain ⟨hc, hfr⟩ := h
  obtain ⟨hmem, hmin, -⟩ := popMin_elim hpop
  have hsound := hc.pq_sound e hmem
  have hde : st.dist e.2 = e.1 := by
    refine le_antisymm hsound.1 ?_
    have hne : st.dist e.2 ≠ ⊤ :=
      fun htop => hsound.2 (top_le_iff.1 (htop ▸ hsound.1))
    exact hmin _ (hc.active e.2 hnv hne)
  have hne : st.dist e.2 ≠ ⊤ := by rw [hde]; exact hsound.2
  have hmemv : ∀ {v : String}, v ∈ st.visited ++ [e.2] → v ∈ st.visited ∨ v = e.2 := by
    intro v hv
    rcases List.mem_append.1 hv with hv | hv
    · exact Or.inl hv
    · exact Or.inr (List.mem_singleton.1 hv)
  have hlec : ∀ v ∈ st.visited ++ [e.2], st.dist v ≤ st.dist e.2 := by
    intro v hv
    rcases hmemv hv with hv | hv
    · rw [hde]; exact hc.settled_pq v hv e hmem
    · rw [hv]
  refine ⟨⟨⟨hc.dist_src, hc.prev_src, hc.prev_fin, ?_, ?_, hc.reach, ?_, ?_, ?_, ?_, ?_, ?_⟩,
    ?_, ?_, hlec⟩, hde⟩
  · intro q hq
    exact hc.pq_sound q (popMin_rest_sub hpop q hq)
  · intro v hv hd
    have hv' : v ∉ st.visited := fun hx => hv (List.mem_append_left _ hx)
    have hv2 : v ≠ e.2 := fun hx => hv (List.mem_append_right _ (by rw [hx]; exact List.mem_singleton_self _))
    refine popMin_rest_of_ne hpop _ (hc.active v hv' hd) ?_
    intro heq
    exact hv2 (congrArg Prod.snd heq)
  · intro v hv p hp
    rcases hmemv hv with hv | hv
    · exact hc.settled_lb v hv p hp
    · subst hv
      rw [hde]
      exact pop_lb hc hfr hmin hnv p hp
  · intro v u hpv
    obtain ⟨h1, h2, h3, h4⟩ := hc.prev_spec v u hpv
    exact ⟨List.mem_append_left _ h1, h2, h3, h4⟩
  · intro v u hpv hv
    have hu := (hc.prev_spec v u hpv).1
    rcases hmemv hv with hv | hv
    · rw [List.indexOf_append_of_mem hu, List.indexOf_append_of_mem hv]
      exact hc.prev_idx v u hpv hv
    · subst hv
      rw [List.indexOf_append_of_mem hu, List.indexOf_append_of_not_mem hnv,
        List.indexOf_cons_self]
      have := List.indexOf_lt_length.2 hu
      omega
  · exact hc.nodup.append (List.nodup_singleton _)
      (fun a ha hb => hnv (by rwa [show e.2 = a from (List.mem_singleton.1 hb).symm]))
  · intro v hv
    rcases hmemv hv with hv | hv
    · exact hc.visited_fin v hv
    · rw [hv]; exact hne
  · intro v hv q hq
    rcases hmemv hv with hv | hv
    · exact hc.settled_pq v hv q (popMin_rest_sub hpop q hq)
    · rw [hv, hde]
      exact hmin q (popMin_rest_sub hpop q hq)
  · intro u hu hne2 v
    rcases hmemv hu with hu | hu
    · exact hfr u hu v
    · exact absurd hu hne2
  · exact List.mem_append_right _ (List.mem_singleton_self _)

/-- One neighbor relaxation preserves the relaxation invariant, only lowers
distances, never touches settled nodes, and records the frontier bound. -/
theorem relaxOne_rinv {W : String → String → WithTop ℕ} {src c : String} {st : DState}
    {track : Bool} (h : RInv W src c st) (n : String) :
    RInv W src c (relaxNeighbor W c track st n)
    ∧ (relaxNeighbor W c track st n).visited = st.visited
    ∧ (∀ v, (relaxNeighbor W c track st n).dist v ≤ st.dist v)
    ∧ (∀ v ∈ st.visited, (relaxNeighbor W c track st n).dist v = st.dist v)
    ∧ (relaxNeighbor W c track st n).pq.length ≤ st.pq.length + 1
    ∧ (n ∉ st.visited → (relaxNeighbor W c track st n).dist n ≤ st.dist c + W c n) := by
  unfold relaxNeighbor
  split_ifs with h1 h2 h3
  · exact ⟨h, rfl, fun v => le_refl _, fun v _ => rfl, by omega,
      fun hn => absurd h1 hn⟩
  · refine ⟨h, rfl, fun v => le_refl _, fun v _ => rfl, by omega, fun hn => ?_⟩
    rw [h2, add_top]
    exact le_top
  · -- improvement branch
    have hcn : c ≠ n := fun he => h1 (he ▸ h.c_mem)
    have halt_ne : st.dist c + W c n ≠ ⊤ := ne_top_of_lt h3
    have hdc_ne : st.dist c ≠ ⊤ := (WithTop.add_ne_top.1 halt_ne).1
    have hsrc_ne : src ≠ n := by
      intro hs
      have h0 : st.dist n = 0 := by rw [← hs, h.core.dist_src]
      rw [h0] at h3
      exact absurd h3 ((zero_le _).not_lt)
    have hmono : ∀ v, (if v = n then st.dist c + W c n else st.dist v) ≤ st.dist v := by
      intro v
      by_cases hv : v = n
      · rw [if_pos hv, hv]
        exact le_of_lt h3
      · rw [if_neg hv]
    have hvis : ∀ v ∈ st.visited, (if v = n then st.dist c + W c n else st.dist v) = st.dist v := by
      intro v hv
      rw [if_neg (fun (he : v = n) => h1 (he ▸ hv))]
    refine ⟨⟨⟨?_, ?_, ?_, ?_, ?_, ?_, ?_, ?_, ?_, h.core.nodup, ?_, ?_⟩, ?_, h.c_mem, ?_⟩,
      rfl, hmono, hvis, by simp, fun hn => ?_⟩
    · show (if src = n then st.dist c + W c n else st.dist src) = 0
      rw [if_neg hsrc_ne, h.core.dist_src]
    · show (if src = n then some c else st.prev src) = none
      rw [if_neg hsrc_ne, h.core.prev_src]
    · intro v hv hd
      show (if v = n then some c else st.prev v) ≠ none
      by_cases hvn : v = n
      · rw [if_pos hvn]
        simp
      · rw [if_neg hvn]
        dsimp only at hd
        rw [if_neg hvn] at hd
        exact h.core.prev_fin v hv hd
    · intro q hq
      rcases List.mem_append.1 hq with hq | hq
      · have := h.core.pq_sound q hq
        exact ⟨le_trans (hmono q.2) this.1, this.2⟩
      · rw [List.mem_singleton.1 hq]
        exact ⟨le_of_eq (if_pos rfl), halt_ne⟩
    · intro v hv hd
      dsimp only at hd ⊢
      by_cases hvn : v = n
      · rw [if_pos hvn, hvn]
        exact List.mem_append_right _ (List.mem_singleton_self _)
      · rw [if_neg hvn] at hd ⊢
        exact List.mem_append_left _ (h.core.active v hv hd)
    · intro v hd
      dsimp only at hd ⊢
      by_cases hvn : v = n
      · obtain ⟨p, hp, hcost⟩ := h.core.reach c hdc_ne
        refine ⟨p ++ [v], FromTo_concat v hp, ?_⟩
        rw [pathCost_concat v hp.2, hcost, if_pos hvn, hvn]
      · rw [if_neg hvn] at hd ⊢
        exact h.core.reach v hd
    · intro v hv p hp
      dsimp only
      rw [hvis v hv]
      exact h.core.settled_lb v hv p hp
    · intro v u hpv
      dsimp only at hpv ⊢
      by_cases hvn : v = n
      · rw [if_pos hvn] at hpv
        injection hpv with hu
        subst hu
        refine ⟨h.c_mem, ?_, ?_, ?_⟩
        · rw [hvn]
          exact h2
        · rw [if_pos hvn, if_neg hcn, hvn]
        · rw [if_pos hvn]
          exact halt_ne
      · rw [if_neg hvn] at hpv
        obtain ⟨hu1, hu2, hu3, hu4⟩ := h.core.prev_spec v u hpv
        have hun : u ≠ n := fun he => h1 (he ▸ hu1)
        refine ⟨hu1, hu2, ?_, ?_⟩
        · rw [if_neg hvn, if_neg hun]
          exact hu3
        · rw [if_neg hvn]
          exact hu4
    · intro v u hpv hv
      dsimp only at hpv ⊢
      have hvn : v ≠ n := fun he => h1 (he ▸ hv)
      rw [if_neg hvn] at hpv
      exact h.core.prev_idx v u hpv hv
    · intro v hv
      dsimp only
      rw [hvis v hv]
      exact h.core.visited_fin v hv
    · intro v hv q hq
      dsimp only at hq ⊢
      rw [hvis v hv]
      rcases List.mem_append.1 hq with hq | hq
      · exact h.core.settled_pq v hv q hq
      · rw [List.mem_singleton.1 hq]
        exact le_trans (h.le_c v hv) (self_le_add_right _ _)
    · intro u hu hune v
      dsimp only
      have hun : u ≠ n := fun he => h1 (he ▸ hu)
      rw [if_neg hun]
      exact le_trans (hmono v) (h.frontier_ne u hu hune v)
    · intro v hv
      dsimp only
      rw [hvis v hv, if_neg hcn]
      exact h.le_c v hv
    · dsimp only
      rw [if_pos rfl]
  · exact ⟨h, rfl, fun v => le_refl _, fun v _ => rfl, by omega,
      fun hn => le_of_not_lt h3⟩

/-- Folding the relaxation over a neighbor list preserves the invariant and
establishes the frontier bound for every processed neighbor. -/
theorem foldRelax_rinv {W : String → String → WithTop ℕ} {src c : String}
    {track : Bool} :
    ∀ (ns : List String) (st : DState), RInv W src c st →
    RInv W src c (ns.foldl (relaxNeighbor W c track) st)
    ∧ (ns.foldl (relaxNeighbor W c track) st).visited = st.visited
    ∧ (∀ v, (ns.foldl (relaxNeighbor W c track) st).dist v ≤ st.dist v)
    ∧ (∀ v ∈ st.visited, (ns.foldl (relaxNeighbor W c track) st).dist v = st.dist v)
    ∧ (ns.foldl (relaxNeighbor W c track) st).pq.length ≤ st.pq.length + ns.length
    ∧ (∀ n ∈ ns, n ∉ st.visited →
        (ns.foldl (relaxNeighbor W c track) st).dist n ≤ st.dist c + W c n) := by
  intro ns
  induction ns with
  | nil =>
    intro st h
    exact ⟨h, rfl, fun v => le_refl _, fun v _ => rfl, by simp, by simp⟩
  | cons n ns ih =>
    intro st h
    obtain ⟨h1, h1v, h1mono, h1vis, h1len, h1bound⟩ := @relaxOne_rinv W src c st track h n
    obtain ⟨h2, h2v, h2mono, h2vis, h2len, h2bound⟩ := ih (relaxNeighbor W c track st n) h1
    have hdc : (relaxNeighbor W c track st n).dist c = st.dist c := h1vis c h.c_mem
    simp only [List.foldl_cons, List.length_cons]
    refine ⟨h2, by rw [h2v, h1v], fun v => le_trans (h2mono v) (h1mono v), ?_, ?_, ?_⟩
    · intro v hv
      rw [h2vis v (by rw [h1v]; exact hv), h1vis v hv]
    · omega
    · intro m hm hmv
      rcases List.mem_cons.1 hm with hm | hm
      · subst hm
        exact le_trans (h2mono m) (h1bound hmv)
      · have hb := h2bound m hm (by rw [h1v]; exact hmv)
        rw [hdc] at hb
        exact hb

/-- After settling the popped node and relaxing all its neighbors, the full
loop invariant holds again. -/
theorem settle_dinv {adj : String → List String} {W : String → String → WithTop ℕ}
    {src : String} {st : DState} {e : WithTop ℕ × String}
    {rest : List (WithTop ℕ × String)} {track : Bool} (stps : List Step)
    (hWadj : ∀ u v, W u v ≠ ⊤ → v ∈ adj u)
    (h : DInv W src st) (hpop : popMin st.pq = some (e, rest))
    (hnv : e.2 ∉ st.visited) :
    DInv W src ((adj e.2).foldl (relaxNeighbor W e.2 track)
      { st with pq := rest, visited := st.visited ++ [e.2], steps := stps })
    ∧ ((adj e.2).foldl (relaxNeighbor W e.2 track)
        { st with pq := rest, visited := st.visited ++ [e.2], steps := stps }).visited
      = st.visited ++ [e.2]
    ∧ ((adj e.2).foldl (relaxNeighbor W e.2 track)
        { st with pq := rest, visited := st.visited ++ [e.2], steps := stps }).pq.length
      ≤ rest.length + (adj e.2).length := by
  obtain ⟨hr, hde⟩ := settle_rinv stps h hpop hnv
  obtain ⟨h2, h2v, h2mono, h2vis, h2len, h2bound⟩ := foldRelax_rinv (adj e.2) _ hr
  have hstvv :
      ({ st with pq := rest, visited := st.visited ++ [e.2], steps := stps } : DState).visited
        = st.visited ++ [e.2] := rfl
  have he2mem : e.2 ∈ st.visited ++ [e.2] :=
    List.mem_append_right _ (List.mem_singleton_self _)
  refine ⟨⟨h2.core, ?_⟩, by rw [h2v], by simpa using h2len⟩
  intro u hu v
  rw [h2v] at hu
  rw [hstvv] at hu
  by_cases huc : u = e.2
  · by_cases hv : v ∈ st.visited ++ [e.2]
    · rw [huc]
      exact le_trans (h2.le_c v (by rw [h2v, hstvv]; exact hv)) (self_le_add_right _ _)
    · by_cases hadj : v ∈ adj e.2
      · have hb := h2bound v hadj (by rw [hstvv]; exact hv)
        rw [huc]
        have hfe : ((adj e.2).foldl (relaxNeighbor W e.2 track)
            { st with pq := rest, visited := st.visited ++ [e.2], steps := stps }).dist e.2
            = st.dist e.2 := h2vis e.2 (by rw [hstvv]; exact he2mem)
        rw [hfe]
        exact hb
      · have hW : W u v = ⊤ := by
          rw [huc]
          by_contra hW
          exact hadj (hWadj e.2 v hW)
        rw [hW, add_top]
        exact le_top
  · exact h2.frontier_ne u (by rw [h2v, hstvv]; exact hu) huc v

theorem filter_visited_append {nodesF : Finset String} {visited : List String} {c : String} :
    nodesF.filter (fun v => v ∉ visited ++ [c]) =
      (nodesF.filter (fun v => v ∉ visited)).erase c := by
  ext x
  simp only [Finset.mem_filter, Finset.mem_erase, List.mem_append, List.mem_singleton]
  constructor
  · rintro ⟨hx, hx2⟩
    push_neg at hx2
    exact ⟨hx2.2, hx, hx2.1⟩
  · rintro ⟨hxc, hx, hx2⟩
    exact ⟨hx, fun h => h.elim hx2 hxc⟩

theorem filter_visited_append_not {nodesF : Finset String} {visited : List String}
    {c : String} (hcm : c ∉ nodesF) :
    nodesF.filter (fun v => v ∉ visited ++ [c]) =
      nodesF.filter (fun v => v ∉ visited) := by
  apply Finset.filter_congr
  intro x hx
  have hxc : x ≠ c := fun h => hcm (h ▸ hx)
  simp only [List.mem_append, List.mem_singleton]
  constructor
  · intro h h2
    exact h (Or.inl h2)
  · intro h h2
    exact h2.elim h hxc

/-- Main loop theorem: with sufficient fuel, the loop preserves the core
invariant and halts with an exhausted frontier or with `endNode` settled. -/
theorem loop_main {adj : String → List String} {W : String → String → WithTop ℕ}
    {src endNode : String} {track : Bool} {nodesF : Finset String}
    (hWadj : ∀ u v, W u v ≠ ⊤ → v ∈ adj u)
    (hNF : ∀ v, v ∉ nodesF → adj v = []) :
    ∀ (fuel : ℕ) (st : DState), DInv W src st → loopMeasure adj nodesF st ≤ fuel →
      DCore W src (dijkstraLoop adj W endNode track fuel st)
      ∧ (dijkstraLoop adj W endNode track fuel st).visited.length
          ≤ st.visited.length + fuel
      ∧ (((dijkstraLoop adj W endNode track fuel st).pq = []
            ∧ Frontier W (dijkstraLoop adj W endNode track fuel st))
          ∨ endNode ∈ (dijkstraLoop adj W endNode track fuel st).visited) := by
  intro fuel
  induction fuel with
  | zero =>
    intro st h hm
    have hpq : st.pq = [] := by
      refine List.length_eq_zero.1 ?_
      unfold loopMeasure at hm
      omega
    simp only [dijkstraLoop]
    exact ⟨h.1, by omega, Or.inl ⟨hpq, h.2⟩⟩
  | succ fuel ih =>
    intro st h hm
    cases hpop : popMin st.pq with
    | none =>
      simp only [dijkstraLoop, hpop]
      exact ⟨h.1, by omega, Or.inl ⟨popMin_nil_iff.1 hpop, h.2⟩⟩
    | some pr =>
      obtain ⟨e, rest⟩ := pr
      have hlen := popMin_rest_length hpop
      simp only [dijkstraLoop, hpop]
      by_cases hv : e.2 ∈ st.visited
      · rw [if_pos hv]
        have h' := skip_dinv h hpop hv
        have hm' : loopMeasure adj nodesF { st with pq := rest } ≤ fuel := by
          unfold loopMeasure at hm ⊢
          dsimp only at hm ⊢
          omega
        obtain ⟨c1, c2, c3⟩ := ih _ h' hm'
        refine ⟨c1, ?_, c3⟩
        dsimp only at c2
        omega
      · rw [if_neg hv]
        by_cases hend : e.2 = endNode
        · rw [if_pos hend]
          obtain ⟨hr, -⟩ := settle_rinv
            ((st.steps ++ traceVisit track e.2 st.dist) ++ traceFound track e.2 st.dist)
            h hpop hv
          refine ⟨hr.core, ?_, Or.inr ?_⟩
          · show (st.visited ++ [e.2]).length ≤ st.visited.length + (fuel + 1)
            rw [List.length_append]
            simp
          · show endNode ∈ st.visited ++ [e.2]
            rw [← hend]
            exact List.mem_append_right _ (List.mem_singleton_self _)
        · rw [if_neg hend]
          obtain ⟨h2, h2v, h2len⟩ := @settle_dinv adj W src st e rest track
            (st.steps ++ traceVisit track e.2 st.dist) hWadj h hpop hv
          have hm2 : loopMeasure adj nodesF ((adj e.2).foldl (relaxNeighbor W e.2 track) { st with pq := rest, visited := st.visited ++ [e.2], steps := st.steps ++ traceVisit track e.2 st.dist }) ≤ fuel := by
            unfold loopMeasure at hm ⊢
            by_cases hcm : e.2 ∈ nodesF
            · have hfilter : nodesF.filter (fun v => v ∉ ((adj e.2).foldl (relaxNeighbor W e.2 track) { st with pq := rest, visited := st.visited ++ [e.2], steps := st.steps ++ traceVisit track e.2 st.dist }).visited) = (nodesF.filter (fun v => v ∉ st.visited)).erase e.2 := by
                simp only [h2v]
                exact filter_visited_append
              have hS := Finset.sum_erase_add
                (nodesF.filter (fun v => v ∉ st.visited))
                (fun v => 1 + (adj v).length) (Finset.mem_filter.2 ⟨hcm, hv⟩)
              have hS2 : ((nodesF.filter (fun v => v ∉ st.visited)).erase e.2).sum
                  (fun v => 1 + (adj v).length) + (1 + (adj e.2).length)
                  = (nodesF.filter (fun v => v ∉ st.visited)).sum
                    (fun v => 1 + (adj v).length) := by
                simpa using hS
              rw [hfilter]
              omega
            · have hfilter : nodesF.filter (fun v => v ∉ ((adj e.2).foldl (relaxNeighbor W e.2 track) { st with pq := rest, visited := st.visited ++ [e.2], steps := st.steps ++ traceVisit track e.2 st.dist }).visited) = nodesF.filter (fun v => v ∉ st.visited) := by
                simp only [h2v]
                exact filter_visited_append_not hcm
              have hadj0 : (adj e.2).length = 0 := by rw [hNF e.2 hcm]; rfl
              rw [hfilter]
              omega
          obtain ⟨c1, c2, c3⟩ := ih _ h2 hm2
          refine ⟨c1, ?_, c3⟩
          rw [h2v] at c2
          rw [List.length_append] at c2
          simp only [List.length_singleton] at c2
          omega

theorem buildPath_none {prev : String → Option String} {cur : String}
    (h : prev cur = none) : ∀ fuel, buildPath prev fuel cur = [cur] := by
  intro fuel
  cases fuel with
  | zero => rfl
  | succ n => simp [buildPath, h]

/-- Walking `previous` back from a settled node yields a route from the
source whose cost is the recorded distance. -/
theorem buildPath_spec {adj : String → List String} {W : String → String → WithTop ℕ}
    {src : String} {st : DState}
    (hc : DCore W src st) (hWadj : ∀ u v, W u v ≠ ⊤ → v ∈ adj u) :
    ∀ (fuel : ℕ) (v : String), v ∈ st.visited → st.dist v ≠ ⊤ →
      st.visited.indexOf v < fuel →
      FromTo (buildPath st.prev fuel v) src v
      ∧ pathCost W (buildPath st.prev fuel v) = st.dist v
      ∧ List.Chain' (fun a b => b ∈ adj a) (buildPath st.prev fuel v) := by
  intro fuel
  induction fuel with
  | zero => intro v _ _ hidx; omega
  | succ fuel ih =>
    intro v hv hd hidx
    cases hp : st.prev v with
    | none =>
      have hvs : v = src := by
        by_contra hne
        exact (hc.prev_fin v hne hd) hp
      subst hvs
      rw [show buildPath st.prev (fuel + 1) v = [v] from by simp [buildPath, hp]]
      refine ⟨FromTo_self v, ?_, by simp⟩
      show (0 : WithTop ℕ) = st.dist v
      exact hc.dist_src.symm
    | some u =>
      obtain ⟨hu_mem, hW, hdist, -⟩ := hc.prev_spec v u hp
      have hd_u : st.dist u ≠ ⊤ := by
        intro ht
        rw [hdist, ht, top_add] at hd
        exact hd rfl
      have hidx_u : st.visited.indexOf u < fuel := by
        have := hc.prev_idx v u hp hv
        omega
      obtain ⟨ih1, ih2, ih3⟩ := ih u hu_mem hd_u hidx_u
      have hbp : buildPath st.prev (fuel + 1) v = buildPath st.prev fuel u ++ [v] := by
        simp [buildPath, hp]
      rw [hbp]
      refine ⟨FromTo_concat v ih1, ?_, ?_⟩
      · rw [pathCost_concat v ih1.2, ih2, hdist]
      · rw [List.chain'_append]
        refine ⟨ih3, List.chain'_singleton _, ?_⟩
        intro x hx y hy
        have hx2 : x = u := by
          rw [ih1.2] at hx
          exact (Option.mem_some_iff.1 hx).symm
        have hy2 : y = v := by
          simp only [List.head?_cons, Option.mem_def, Option.some.injEq] at hy
          exact hy.symm
        rw [hx2, hy2]
        exact hWadj u v hW

/-- The initial search state satisfies the invariant. -/
theorem init_dinv (W : String → String → WithTop ℕ) (src : String) (stps : List Step) :
    DInv W src { dist := fun n => if n = src then 0 else ⊤,
                 prev := fun _ => none,
                 visited := [],
                 pq := [((0 : WithTop ℕ), src)],
                 steps := stps } := by
  refine ⟨⟨?_, rfl, ?_, ?_, ?_, ?_, ?_, ?_, ?_, List.nodup_nil, ?_, ?_⟩, ?_⟩
  · show (if src = src then (0 : WithTop ℕ) else ⊤) = 0
    rw [if_pos rfl]
  · intro v hv hd
    exact absurd (if_neg hv) hd
  · intro q hq
    rw [List.mem_singleton] at hq
    subst hq
    constructor
    · show (if src = src then (0 : WithTop ℕ) else ⊤) ≤ 0
      rw [if_pos rfl]
    · exact WithTop.zero_ne_top
  · intro v hv hd
    by_cases hs : v = src
    · subst hs
      show ((if v = v then (0 : WithTop ℕ) else ⊤), v) ∈ [((0 : WithTop ℕ), v)]
      rw [if_pos rfl]
      exact List.mem_singleton_self _
    · exact absurd (if_neg hs) hd
  · intro v hd
    by_cases hs : v = src
    · subst hs
      refine ⟨[v], FromTo_self v, ?_⟩
      show (0 : WithTop ℕ) = if v = v then 0 else ⊤
      rw [if_pos rfl]
    · exact absurd (if_neg hs) hd
  · intro v hv
    exact absurd hv (List.not_mem_nil v)
  · intro v u hpv
    exact Option.noConfusion hpv
  · intro v u hpv hv
    exact absurd hv (List.not_mem_nil v)
  · intro v hv
    exact absurd hv (List.not_mem_nil v)
  · intro v hv
    exact absurd hv (List.not_mem_nil v)
  · intro u hu
    exact absurd hu (List.not_mem_nil u)

/-- `dijkstra` unfolded into its loop run. -/
theorem dijkstra_as_loop (pf : PathFinder) (s e : String) (t : TimeOfDay)
    (em track : Bool) :
    dijkstra pf s e t em track =
      { path := buildPath (dijkstraLoop (adjOf pf.graph)
          (fun u v => get_effective_weight pf u v t em) e track dijkstraFuel
          (dInit s track)).prev dijkstraFuel e
        distance := (dijkstraLoop (adjOf pf.graph)
          (fun u v => get_effective_weight pf u v t em) e track dijkstraFuel
          (dInit s track)).dist e
        steps := (dijkstraLoop (adjOf pf.graph)
          (fun u v => get_effective_weight pf u v t em) e track dijkstraFuel
          (dInit s track)).steps
        visited_nodes := (dijkstraLoop (adjOf pf.graph)
          (fun u v => get_effective_weight pf u v t em) e track dijkstraFuel
          (dInit s track)).visited } := rfl

theorem campus_sum_bound :
    campusNodeNames.toFinset.sum (fun v => 1 + (adjOf campusGraph v).length) ≤ 99 := by
  decide

theorem dInit_measure (s : String) (track : Bool) :
    loopMeasure (adjOf campusGraph) campusNodeNames.toFinset (dInit s track)
      ≤ dijkstraFuel := by
  unfold loopMeasure dInit dijkstraFuel
  dsimp only
  rw [Finset.filter_true_of_mem (fun x _ => List.not_mem_nil x)]
  have := campus_sum_bound
  simp only [List.length_singleton]
  omega

/-- Shortest-path specification of `PathFinder.dijkstra` on the campus
graph, for every constraint state and mode: the returned distance is a
lower bound on the cost of every route, a finite returned distance is
attained by the returned path (a genuine graph walk), and an unsettled
destination yields the `⊤` sentinel with the degenerate one-element path. -/
theorem dijkstra_spec (bl : Finset (String × String)) (hz : Finset String)
    (s e : String) (t : TimeOfDay) (em track : Bool) :
    (∀ p, FromTo p s e →
      (dijkstra ⟨campusGraph, bl, hz⟩ s e t em track).distance
        ≤ pathCost (fun u v => get_effective_weight ⟨campusGraph, bl, hz⟩ u v t em) p)
    ∧ ((dijkstra ⟨campusGraph, bl, hz⟩ s e t em track).distance ≠ ⊤ →
        FromTo (dijkstra ⟨campusGraph, bl, hz⟩ s e t em track).path s e
        ∧ pathCost (fun u v => get_effective_weight ⟨campusGraph, bl, hz⟩ u v t em)
            (dijkstra ⟨campusGraph, bl, hz⟩ s e t em track).path
          = (dijkstra ⟨campusGraph, bl, hz⟩ s e t em track).distance
        ∧ IsWalk campusGraph (dijkstra ⟨campusGraph, bl, hz⟩ s e t em track).path)
    ∧ (e ∉ (dijkstra ⟨campusGraph, bl, hz⟩ s e t em track).visited_nodes →
        (dijkstra ⟨campusGraph, bl, hz⟩ s e t em track).distance = ⊤
        ∧ (dijkstra ⟨campusGraph, bl, hz⟩ s e t em track).path = [e]) := by
  have hWadj : ∀ u v,
      (fun u v => get_effective_weight ⟨campusGraph, bl, hz⟩ u v t em) u v ≠ ⊤ →
      v ∈ adjOf campusGraph u := fun u v h => weight_adjacent h
  have hNF : ∀ v, v ∉ campusNodeNames.toFinset → adjOf campusGraph v = [] :=
    fun v hv => adjOf_nil (fun hm => hv (List.mem_toFinset.2 hm))
  have hinit : DInv (fun u v => get_effective_weight ⟨campusGraph, bl, hz⟩ u v t em) s
      (dInit s track) :=
    init_dinv (fun u v => get_effective_weight ⟨campusGraph, bl, hz⟩ u v t em) s _
  obtain ⟨hcore, hlen, hdisj⟩ :=
    @loop_main (adjOf campusGraph)
      (fun u v => get_effective_weight ⟨campusGraph, bl, hz⟩ u v t em) s e track
      campusNodeNames.toFinset hWadj hNF dijkstraFuel (dInit s track) hinit
      (dInit_measure s track)
  rw [dijkstra_as_loop]
  dsimp only
  refine ⟨?_, ?_, ?_⟩
  · -- lower bound
    intro p hp
    rcases hdisj with ⟨hpq, hfr⟩ | hmem
    · have hsrc_mem : s ∈ (dijkstraLoop (adjOf campusGraph)
          (fun u v => get_effective_weight ⟨campusGraph, bl, hz⟩ u v t em) e track
          dijkstraFuel (dInit s track)).visited := by
        by_contra hs
        have h0 : (dijkstraLoop (adjOf campusGraph)
            (fun u v => get_effective_weight ⟨campusGraph, bl, hz⟩ u v t em) e track
            dijkstraFuel (dInit s track)).dist s ≠ ⊤ := by
          rw [hcore.dist_src]
          exact WithTop.zero_ne_top
        have := hcore.active s hs h0
        rw [hpq] at this
        exact absurd this (List.not_mem_nil _)
      have := exhausted_lb hcore hfr hpq p s e hp hsrc_mem
      rwa [hcore.dist_src, zero_add] at this
    · exact hcore.settled_lb e hmem p hp
  · -- attainment
    intro hne
    have hmem : e ∈ (dijkstraLoop (adjOf campusGraph)
        (fun u v => get_effective_weight ⟨campusGraph, bl, hz⟩ u v t em) e track
        dijkstraFuel (dInit s track)).visited := by
      rcases hdisj with ⟨hpq, -⟩ | hmem
      · by_contra hm
        have := hcore.active e hm hne
        rw [hpq] at this
        exact absurd this (List.not_mem_nil _)
      · exact hmem
    have hidx : (dijkstraLoop (adjOf campusGraph)
        (fun u v => get_effective_weight ⟨campusGraph, bl, hz⟩ u v t em) e track
        dijkstraFuel (dInit s track)).visited.indexOf e < dijkstraFuel := by
      have h1 := List.indexOf_lt_length.2 hmem
      have h2 := hlen
      have h0 : (dInit s track).visited.length = 0 := rfl
      omega
    obtain ⟨b1, b2, b3⟩ := buildPath_spec hcore hWadj dijkstraFuel e hmem hne hidx
    exact ⟨b1, b2, b3⟩
  · -- unsettled destination
    intro hnm
    rcases hdisj with ⟨hpq, -⟩ | hmem
    · have hde : (dijkstraLoop (adjOf campusGraph)
          (fun u v => get_effective_weight ⟨campusGraph, bl, hz⟩ u v t em) e track
          dijkstraFuel (dInit s track)).dist e = ⊤ := by
        by_contra hne
        have := hcore.active e hnm hne
        rw [hpq] at this
        exact absurd this (List.not_mem_nil _)
      refine ⟨hde, ?_⟩
      have hpe : (dijkstraLoop (adjOf campusGraph)
          (fun u v => get_effective_weight ⟨campusGraph, bl, hz⟩ u v t em) e track
          dijkstraFuel (dInit s track)).prev e = none := by
        cases hpv : (dijkstraLoop (adjOf campusGraph)
            (fun u v => get_effective_weight ⟨campusGraph, bl, hz⟩ u v t em) e track
            dijkstraFuel (dInit s track)).prev e with
        | none => rfl
        | some u => exact absurd hde (hcore.prev_spec e u hpv).2.2.2
      exact buildPath_none hpe dijkstraFuel
    · exact absurd hmem hnm

theorem popMin_singleton (x : WithTop ℕ × String) : popMin [x] = some (x, []) := by
  simp [popMin]

/-- When the popped node is the destination, the loop stops at once. -/
theorem loop_found_proj {adj : String → List String} {W : String → String → WithTop ℕ}
    {endNode : String} {track : Bool} (fuel : ℕ) (st : DState)
    (e : WithTop ℕ × String) (rest : List (WithTop ℕ × String))
    (hpop : popMin st.pq = some (e, rest)) (hnv : e.2 ∉ st.visited)
    (hend : e.2 = endNode) :
    (dijkstraLoop adj W endNode track (fuel + 1) st).dist = st.dist
    ∧ (dijkstraLoop adj W endNode track (fuel + 1) st).prev = st.prev
    ∧ (dijkstraLoop adj W endNode track (fuel + 1) st).visited = st.visited ++ [e.2] := by
  simp only [dijkstraLoop, hpop]
  rw [if_neg hnv, if_pos hend]
  exact ⟨rfl, rfl, rfl⟩

/-- A query with `start == end` settles the start immediately: distance `0`,
the one-element path, and only the start visited. -/
theorem dijkstra_self (pf : PathFinder) (s : String) (t : TimeOfDay) (em track : Bool) :
    (dijkstra pf s s t em track).distance = 0
    ∧ (dijkstra pf s s t em track).path = [s]
    ∧ (dijkstra pf s s t em track).visited_nodes = [s] := by
  have hpop : popMin (dInit s track).pq = some (((0 : WithTop ℕ), s), []) :=
    popMin_singleton _
  have hnv : s ∉ (dInit s track).visited := List.not_mem_nil s
  have hfuel : dijkstraFuel = 99 + 1 := rfl
  rw [dijkstra_as_loop]
  dsimp only
  rw [hfuel]
  obtain ⟨hd, hp, hv⟩ := loop_found_proj 99 (dInit s track) ((0 : WithTop ℕ), s) []
    hpop hnv rfl
  refine ⟨?_, ?_, ?_⟩
  · rw [hd]
    show (if s = s then (0 : WithTop ℕ) else ⊤) = 0
    rw [if_pos rfl]
  · rw [hp]
    exact buildPath_none rfl _
  · rw [hv]
    rfl

/-- Between distinct locations every route costs at least one edge, so the
returned distance is never `0`. -/
theorem dijkstra_ne_zero (bl : Finset (String × String)) (hz : Finset String)
    (s e : String) (t : TimeOfDay) (em track : Bool) (hne : s ≠ e) :
    (dijkstra ⟨campusGraph, bl, hz⟩ s e t em track).distance ≠ 0 := by
  intro h0
  have hnt : (dijkstra ⟨campusGraph, bl, hz⟩ s e t em track).distance ≠ ⊤ := by
    rw [h0]
    exact WithTop.zero_ne_top
  obtain ⟨hFT, hcost, -⟩ := (dijkstra_spec bl hz s e t em track).2.1 hnt
  rw [h0] at hcost
  rcases hpath : (dijkstra ⟨campusGraph, bl, hz⟩ s e t em track).path with _ | ⟨a, tl⟩
  · rw [hpath] at hFT
    exact FromTo_ne_nil hFT rfl
  · rcases tl with _ | ⟨b, rest⟩
    · rw [hpath] at hFT
      obtain ⟨ha1, ha2⟩ := FromTo_singleton hFT
      exact hne (ha1 ▸ ha2)
    · rw [hpath] at hcost
      have h2 : get_effective_weight ⟨campusGraph, bl, hz⟩ a b t em
          + pathCost (fun u v => get_effective_weight ⟨campusGraph, bl, hz⟩ u v t em)
            (b :: rest) = 0 := hcost
      have hle : get_effective_weight ⟨campusGraph, bl, hz⟩ a b t em ≤ (0 : WithTop ℕ) := by
        rw [← h2]
        exact self_le_add_right _ _
      have hWab : get_effective_weight ⟨campusGraph, bl, hz⟩ a b t em = 0 :=
        nonpos_iff_eq_zero.1 hle
      have hWnt : get_effective_weight ⟨campusGraph, bl, hz⟩ a b t em ≠ ⊤ := by
        rw [hWab]
        exact WithTop.zero_ne_top
      obtain ⟨k, hk, hk100⟩ := weight_ge_100 rfl hWnt
      rw [hk] at hWab
      have hk0 : k = 0 := by exact_mod_cast hWab
      omega

/-- `find_nearest_exit` unfolded over the two declared exit points. -/
theorem nearest_exit_unfold (bl : Finset (String × String)) (hz : Finset String)
    (s : String) (t : TimeOfDay) :
    find_nearest_exit ⟨campusGraph, bl, hz⟩ s t =
      (if (dijkstra ⟨campusGraph, bl, hz⟩ s ("Sports Complex") t true false).distance <
          (if (dijkstra ⟨campusGraph, bl, hz⟩ s ("Main Gate") t true false).distance <
              (⊤ : WithTop ℕ)
            then ((some ("Main Gate") : Option String),
              (dijkstra ⟨campusGraph, bl, hz⟩ s ("Main Gate") t true false).distance)
            else ((none : Option String), (⊤ : WithTop ℕ))).2
        then ((some ("Sports Complex") : Option String),
          (dijkstra ⟨campusGraph, bl, hz⟩ s ("Sports Complex") t true false).distance)
        else (if (dijkstra ⟨campusGraph, bl, hz⟩ s ("Main Gate") t true false).distance <
              (⊤ : WithTop ℕ)
            then ((some ("Main Gate") : Option String),
              (dijkstra ⟨campusGraph, bl, hz⟩ s ("Main Gate") t true false).distance)
            else ((none : Option String), (⊤ : WithTop ℕ)))) := rfl

/-! ### Claim theorems -/

theorem campus_edges_conn : ∀ x ∈ campusEdges,
    getConn campusGraph x.1 x.2.1 = some x.2.2 := by decide

theorem campus_edges_round : ∀ x ∈ campusEdges, ∀ t : TimeOfDay,
    pyRound10 (x.2.2.distance * x.2.2.traffic.select t)
      = roundHalfUp10 (x.2.2.distance * x.2.2.traffic.select t) := by decide

/-- C2: for every stored edge that is not blocked and every time-of-day
tag, the normal-mode effective weight is the base distance times the
selected multiplier, rounded half-up (`roundHalfUp10` rounds the value
scaled by ten, ties upward). -/
theorem claim_C2 : ∀ (bl : Finset (String × String)) (hz : Finset String)
    (t : TimeOfDay) (u v : String) (c : Connection),
    (u, v, c) ∈ campusEdges → pathKey u v ∉ bl →
    get_effective_weight ⟨campusGraph, bl, hz⟩ u v t false
      = ((roundHalfUp10 (c.distance * c.traffic.select t) : ℕ) : WithTop ℕ) := by
  intro bl hz t u v c hm hb
  have hconn : getConn campusGraph u v = some c := campus_edges_conn (u, v, c) hm
  unfold get_effective_weight
  rw [if_neg hb]
  dsimp only
  rw [hconn]
  exact congrArg (fun k : ℕ => (k : WithTop ℕ)) (campus_edges_round (u, v, c) hm t)

/-- C2 witness: the Main Gate → Library edge at morning. -/
theorem claim_C2_witness :
    get_effective_weight ⟨campusGraph, ∅, ∅⟩ ("Main Gate") ("Library")
        TimeOfDay.morning false
      = ((roundHalfUp10 (150 * 15) : ℕ) : WithTop ℕ) :=
  claim_C2 ∅ ∅ TimeOfDay.morning ("Main Gate") ("Library") ⟨150, ⟨15, 10, 12⟩⟩
    (by decide) (by decide)

/-- C3: emergency-mode weight is the base distance plus 500 per hazardous
endpoint, independent of the time of day; one hazardous endpoint adds
exactly 500, both add exactly 1000. -/
theorem claim_C3 : ∀ (bl : Finset (String × String)) (hz : Finset String)
    (t : TimeOfDay) (u v : String) (c : Connection),
    (u, v, c) ∈ campusEdges → pathKey u v ∉ bl →
    (get_effective_weight ⟨campusGraph, bl, hz⟩ u v t true
      = ((c.distance + (if u ∈ hz then 500 else 0)
          + (if v ∈ hz then 500 else 0) : ℕ) : WithTop ℕ))
    ∧ (u ∉ hz → v ∉ hz →
        get_effective_weight ⟨campusGraph, bl, hz⟩ u v t true
          = ((c.distance : ℕ) : WithTop ℕ))
    ∧ ((u ∈ hz ↔ v ∉ hz) →
        get_effective_weight ⟨campusGraph, bl, hz⟩ u v t true
          = ((c.distance + 500 : ℕ) : WithTop ℕ))
    ∧ (u ∈ hz → v ∈ hz →
        get_effective_weight ⟨campusGraph, bl, hz⟩ u v t true
          = ((c.distance + 1000 : ℕ) : WithTop ℕ)) := by
  intro bl hz t u v c hm hb
  have hconn : getConn campusGraph u v = some c := campus_edges_conn (u, v, c) hm
  have hmain : get_effective_weight ⟨campusGraph, bl, hz⟩ u v t true
      = ((c.distance + (if u ∈ hz then 500 else 0)
          + (if v ∈ hz then 500 else 0) : ℕ) : WithTop ℕ) := by
    unfold get_effective_weight
    rw [if_neg hb]
    dsimp only
    rw [hconn]
    rfl
  refine ⟨hmain, ?_, ?_, ?_⟩
  · intro hu hv
    rw [hmain, if_neg hu, if_neg hv]
    norm_num
  · intro hiff
    by_cases hu : u ∈ hz
    · rw [hmain, if_pos hu, if_neg (hiff.1 hu)]
    · have hv : v ∈ hz := by
        by_contra hv
        exact hu (hiff.2 hv)
      rw [hmain, if_neg hu, if_pos hv]
  · intro hu hv
    rw [hmain, if_pos hu, if_pos hv]

/-- C3 witness: Library → Computer Lab with Library hazardous. -/
theorem claim_C3_witness :
    get_effective_weight ⟨campusGraph, ∅, {("Library" : String)}⟩ ("Library")
        ("Computer Lab") TimeOfDay.evening true
      = ((120 + 500 : ℕ) : WithTop ℕ) :=
  (claim_C3 ∅ {("Library" : String)} TimeOfDay.evening ("Library") ("Computer Lab")
    ⟨120, ⟨16, 14, 10⟩⟩ (by decide) (by decide)).2.2.1 (by decide)

/-- C4: a blocked unordered pair forces the `⊤` sentinel in both directions,
in every mode, whether or not the edge exists. -/
theorem claim_C4 : ∀ (pf : PathFinder) (u v : String) (t : TimeOfDay) (em : Bool),
    pathKey u v ∈ pf.blocked_paths →
    get_effective_weight pf u v t em = ⊤ ∧ get_effective_weight pf v u t em = ⊤ := by
  intro pf u v t em hb
  constructor
  · unfold get_effective_weight
    rw [if_pos hb]
  · unfold get_effective_weight
    rw [if_pos (pathKey_comm u v ▸ hb)]

/-- C4 witness: blocking Library–Computer Lab kills both directions (also
for the inexistent Main Gate–Hostel edge). -/
theorem claim_C4_witness :
    get_effective_weight (block_path initialPathFinder ("Library") ("Computer Lab"))
        ("Library") ("Computer Lab") TimeOfDay.morning false = ⊤
    ∧ get_effective_weight (block_path initialPathFinder ("Library") ("Computer Lab"))
        ("Computer Lab") ("Library") TimeOfDay.morning false = ⊤ :=
  claim_C4 (block_path initialPathFinder ("Library") ("Computer Lab"))
    ("Library") ("Computer Lab") TimeOfDay.morning false (by decide)

/-- C5: marking an exit point hazardous is a silent no-op, and every
sequence of constraint-store operations preserves disjointness of the hazard
set from the exit-point list. -/
theorem claim_C5 :
    (∀ (pf : PathFinder) (n : String), n ∈ pf.graph.exit_points →
      add_hazard_zone pf n = pf)
    ∧ (∀ (ops : List ConstraintOp) (pf : PathFinder),
        (∀ x ∈ pf.hazard_zones, x ∉ pf.graph.exit_points) →
        ∀ x ∈ (ops.foldl applyOp pf).hazard_zones,
          x ∉ (ops.foldl applyOp pf).graph.exit_points) := by
  constructor
  · intro pf n hn
    unfold add_hazard_zone
    rw [if_neg (not_not_intro hn)]
  · intro ops
    induction ops with
    | nil => intro pf h; exact h
    | cons o ops ih =>
      intro pf h
      refine ih (applyOp pf o) ?_
      cases o with
      | block a b => exact h
      | unblock a b => exact h
      | markHazard n =>
        show ∀ x ∈ (add_hazard_zone pf n).hazard_zones,
          x ∉ (add_hazard_zone pf n).graph.exit_points
        unfold add_hazard_zone
        split_ifs with hn
        · exact h
        · intro x hx
          dsimp only at hx ⊢
          rcases Finset.mem_insert.1 hx with hx | hx
          · subst hx
            exact hn
          · exact h x hx
      | unmarkHazard n =>
        intro x hx
        exact h x (Finset.mem_of_mem_erase hx)
      | clearAllHazards =>
        intro x hx
        exact absurd hx (Finset.not_mem_empty x)
      | resetAll =>
        intro x hx
        exact absurd hx (Finset.not_mem_empty x)

/-- C5 witness: a concrete op sequence never makes an exit hazardous. -/
theorem claim_C5_witness :
    ("Main Gate" : String) ∉
      ([ConstraintOp.markHazard ("Main Gate"),
        ConstraintOp.markHazard ("Library")].foldl applyOp initialPathFinder).hazard_zones :=
  fun hmem =>
    claim_C5.2 [ConstraintOp.markHazard ("Main Gate"), ConstraintOp.markHazard ("Library")]
      initialPathFinder (by intro x hx; exact absurd hx (Finset.not_mem_empty x))
      ("Main Gate") hmem (by decide)

/-- C1: the engine returns a lower bound on the cost of every route between
the endpoints, the returned route attains the returned distance and stays on
graph edges whenever the distance is finite, and the reference query
Main Gate → Computer Lab at morning yields the route through the Library
with distance 417. -/
theorem claim_C1 :
    (∀ (bl : Finset (String × String)) (hz : Finset String) (t : TimeOfDay)
        (track : Bool) (s e : String),
      (∀ p, IsWalk campusGraph p → FromTo p s e →
        (dijkstra ⟨campusGraph, bl, hz⟩ s e t false track).distance
          ≤ pathCost (fun u v => get_effective_weight ⟨campusGraph, bl, hz⟩ u v t false) p)
      ∧ ((dijkstra ⟨campusGraph, bl, hz⟩ s e t false track).distance ≠ ⊤ →
          FromTo (dijkstra ⟨campusGraph, bl, hz⟩ s e t false track).path s e
          ∧ IsWalk campusGraph (dijkstra ⟨campusGraph, bl, hz⟩ s e t false track).path
          ∧ pathCost (fun u v => get_effective_weight ⟨campusGraph, bl, hz⟩ u v t false)
              (dijkstra ⟨campusGraph, bl, hz⟩ s e t false track).path
            = (dijkstra ⟨campusGraph, bl, hz⟩ s e t false track).distance))
    ∧ (dijkstra initialPathFinder ("Main Gate") ("Computer Lab") TimeOfDay.morning
        false true).path = [("Main Gate" : String), "Library", "Computer Lab"]
    ∧ (dijkstra initialPathFinder ("Main Gate") ("Computer Lab") TimeOfDay.morning
        false true).distance = ((417 : ℕ) : WithTop ℕ) := by
  refine ⟨?_, by decide, by decide⟩
  intro bl hz t track s e
  obtain ⟨h1, h2, -⟩ := dijkstra_spec bl hz s e t false track
  refine ⟨fun p _ hft => h1 p hft, fun hne => ?_⟩
  obtain ⟨ha, hb, hc⟩ := h2 hne
  exact ⟨ha, hc, hb⟩

/-- C1 witness: the alternative route through the Admin Block is a graph walk
from Main Gate to Computer Lab and costs at least the returned distance. -/
theorem claim_C1_witness :
    IsWalk campusGraph [("Main Gate" : String), "Admin Block", "Computer Lab"]
    ∧ FromTo [("Main Gate" : String), "Admin Block", "Computer Lab"]
        ("Main Gate") ("Computer Lab")
    ∧ (dijkstra ⟨campusGraph, ∅, ∅⟩ ("Main Gate") ("Computer Lab") TimeOfDay.morning
          false true).distance
        ≤ pathCost
            (fun u v => get_effective_weight ⟨campusGraph, ∅, ∅⟩ u v TimeOfDay.morning false)
            [("Main Gate" : String), "Admin Block", "Computer Lab"] :=
  ⟨List.chain'_cons.2 ⟨by decide, List.chain'_cons.2 ⟨by decide, List.chain'_singleton _⟩⟩,
    ⟨rfl, rfl⟩,
    (claim_C1.1 ∅ ∅ TimeOfDay.morning true ("Main Gate") ("Computer Lab")).1
      [("Main Gate" : String), "Admin Block", "Computer Lab"]
      (List.chain'_cons.2 ⟨by decide, List.chain'_cons.2
        ⟨by decide, List.chain'_singleton _⟩⟩) ⟨rfl, rfl⟩⟩

/-- C6: `find_nearest_exit` queries the engine for each declared exit point
in declaration order (Main Gate first, then Sports Complex) in emergency
mode with trace recording off, keeps the minimum under strict `<` so the
earlier exit wins ties, returns `(none, ⊤)` when no exit is reachable, and
returns `(start, 0)` when the start is itself an exit point. -/
theorem claim_C6 : ∀ (bl : Finset (String × String)) (hz : Finset String)
    (s : String) (t : TimeOfDay),
    ((dijkstra ⟨campusGraph, bl, hz⟩ s ("Main Gate") t true false).distance = ⊤ →
      (dijkstra ⟨campusGraph, bl, hz⟩ s ("Sports Complex") t true false).distance = ⊤ →
      find_nearest_exit ⟨campusGraph, bl, hz⟩ s t
        = ((none : Option String), (⊤ : WithTop ℕ)))
    ∧ ((dijkstra ⟨campusGraph, bl, hz⟩ s ("Main Gate") t true false).distance ≠ ⊤ →
        ¬ (dijkstra ⟨campusGraph, bl, hz⟩ s ("Sports Complex") t true false).distance
            < (dijkstra ⟨campusGraph, bl, hz⟩ s ("Main Gate") t true false).distance →
        find_nearest_exit ⟨campusGraph, bl, hz⟩ s t
          = (some ("Main Gate"),
             (dijkstra ⟨campusGraph, bl, hz⟩ s ("Main Gate") t true false).distance))
    ∧ ((dijkstra ⟨campusGraph, bl, hz⟩ s ("Sports Complex") t true false).distance
          < (dijkstra ⟨campusGraph, bl, hz⟩ s ("Main Gate") t true false).distance →
        find_nearest_exit ⟨campusGraph, bl, hz⟩ s t
          = (some ("Sports Complex"),
             (dijkstra ⟨campusGraph, bl, hz⟩ s ("Sports Complex") t true false).distance))
    ∧ (s ∈ campusGraph.exit_points →
        find_nearest_exit ⟨campusGraph, bl, hz⟩ s t = (some s, 0)) := by
  intro bl hz s t
  refine ⟨?_, ?_, ?_, ?_⟩
  · intro h1 h2
    have hn1 : ¬ (dijkstra ⟨campusGraph, bl, hz⟩ s ("Main Gate") t true false).distance
        < (⊤ : WithTop ℕ) := by
      rw [h1]
      exact lt_irrefl ⊤
    rw [nearest_exit_unfold, if_neg hn1]
    dsimp only
    rw [if_neg (by rw [h2]; exact lt_irrefl ⊤)]
  · intro h1 h2
    have hlt1 : (dijkstra ⟨campusGraph, bl, hz⟩ s ("Main Gate") t true false).distance
        < (⊤ : WithTop ℕ) := lt_top_iff_ne_top.2 h1
    rw [nearest_exit_unfold, if_pos hlt1]
    dsimp only
    rw [if_neg h2]
  · intro hlt
    by_cases h1 : (dijkstra ⟨campusGraph, bl, hz⟩ s ("Main Gate") t true false).distance
        < (⊤ : WithTop ℕ)
    · rw [nearest_exit_unfold, if_pos h1]
      dsimp only
      rw [if_pos hlt]
    · rw [nearest_exit_unfold, if_neg h1]
      dsimp only
      rw [if_pos (lt_of_lt_of_le hlt le_top)]
  · intro hs
    have hex : campusGraph.exit_points = [("Main Gate" : String), "Sports Complex"] := rfl
    rw [hex] at hs
    rcases List.mem_cons.1 hs with h | h
    · subst h
      obtain ⟨hd0, -, -⟩ := dijkstra_self ⟨campusGraph, bl, hz⟩ ("Main Gate") t true false
      have h1 : (dijkstra ⟨campusGraph, bl, hz⟩ ("Main Gate") ("Main Gate") t true
          false).distance < (⊤ : WithTop ℕ) := by
        rw [hd0]
        exact lt_top_iff_ne_top.2 WithTop.zero_ne_top
      rw [nearest_exit_unfold, if_pos h1]
      dsimp only
      rw [if_neg (by rw [hd0]; exact (zero_le _).not_lt), hd0]
    · have h : s = "Sports Complex" := List.mem_singleton.1 h
      subst h
      obtain ⟨hd0, -, -⟩ :=
        dijkstra_self ⟨campusGraph, bl, hz⟩ ("Sports Complex") t true false
      have hd1ne : (dijkstra ⟨campusGraph, bl, hz⟩ ("Sports Complex") ("Main Gate") t true
          false).distance ≠ 0 :=
        dijkstra_ne_zero bl hz ("Sports Complex") ("Main Gate") t true false (by decide)
      by_cases h1 : (dijkstra ⟨campusGraph, bl, hz⟩ ("Sports Complex") ("Main Gate") t true
          false).distance < (⊤ : WithTop ℕ)
      · rw [nearest_exit_unfold, if_pos h1]
        dsimp only
        rw [if_pos (by rw [hd0]; exact pos_iff_ne_zero.2 hd1ne), hd0]
      · rw [nearest_exit_unfold, if_neg h1]
        dsimp only
        rw [if_pos (by rw [hd0]; exact lt_top_iff_ne_top.2 WithTop.zero_ne_top), hd0]

/-- C6 witness: with the Library hazardous, the nearest exit from the Main
Gate is the Main Gate itself at distance `0` (the §8 scenario). -/
theorem claim_C6_witness :
    find_nearest_exit ⟨campusGraph, ∅, {("Library" : String)}⟩ ("Main Gate")
        TimeOfDay.morning
      = ((some ("Main Gate") : Option String), (0 : WithTop ℕ)) :=
  (claim_C6 ∅ {("Library" : String)} ("Main Gate") TimeOfDay.morning).2.2.2 (by decide)

/-- C7: whenever the destination is never finalized by the search, the
returned distance is the `⊤` unreachable sentinel and the path is the
degenerate single-element sequence `[end]`; the result is ordinary data
(the total function `dijkstra` always returns a `PathResult`). -/
theorem claim_C7 : ∀ (bl : Finset (String × String)) (hz : Finset String)
    (s e : String) (t : TimeOfDay) (em track : Bool),
    e ∉ (dijkstra ⟨campusGraph, bl, hz⟩ s e t em track).visited_nodes →
    (dijkstra ⟨campusGraph, bl, hz⟩ s e t em track).distance = ⊤
    ∧ (dijkstra ⟨campusGraph, bl, hz⟩ s e t em track).path = [e] :=
  fun bl hz s e t em track => (dijkstra_spec bl hz s e t em track).2.2

/-- C7 witness: blocking all three edges at the Computer Lab isolates it,
so the Main Gate query returns `⊤` and the degenerate path. -/
theorem claim_C7_witness :
    ("Computer Lab" : String) ∉ (dijkstra ⟨campusGraph,
        {(("Admin Block" : String), ("Computer Lab" : String)),
         (("Computer Lab" : String), ("Lecture Hall" : String)),
         (("Computer Lab" : String), ("Library" : String))}, ∅⟩
      ("Main Gate") ("Computer Lab") TimeOfDay.morning false true).visited_nodes
    ∧ (dijkstra ⟨campusGraph,
        {(("Admin Block" : String), ("Computer Lab" : String)),
         (("Computer Lab" : String), ("Lecture Hall" : String)),
         (("Computer Lab" : String), ("Library" : String))}, ∅⟩
      ("Main Gate") ("Computer Lab") TimeOfDay.morning false true).distance = ⊤
    ∧ (dijkstra ⟨campusGraph,
        {(("Admin Block" : String), ("Computer Lab" : String)),
         (("Computer Lab" : String), ("Lecture Hall" : String)),
         (("Computer Lab" : String), ("Library" : String))}, ∅⟩
      ("Main Gate") ("Computer Lab") TimeOfDay.morning false true).path
        = [("Computer Lab" : String)] :=
  ⟨by decide,
    claim_C7
      {(("Admin Block" : String), ("Computer Lab" : String)),
       (("Computer Lab" : String), ("Lecture Hall" : String)),
       (("Computer Lab" : String), ("Library" : String))} ∅
      ("Main Gate") ("Computer Lab") TimeOfDay.morning false true (by decide)⟩

/-- C8 (corrected): for `start == end` the engine returns distance `0`, but
the path is the one-element sequence `[start]`, not the empty sequence the
spec announces. -/
theorem claim_C8 : ∀ (pf : PathFinder) (s : String) (t : TimeOfDay) (em track : Bool),
    (dijkstra pf s s t em track).distance = 0
    ∧ (dijkstra pf s s t em track).path = [s] :=
  fun pf s t em track =>
    ⟨(dijkstra_self pf s t em track).1, (dijkstra_self pf s t em track).2.1⟩

/-- C8 counterexample: the concrete trivial query returns the path
`["Main Gate"]`, which is not the empty sequence claimed by the spec. -/
theorem claim_C8_counterexample :
    (dijkstra initialPathFinder ("Main Gate") ("Main Gate") TimeOfDay.morning
      false true).path ≠ ([] : List String) := by decide

/-- C9 (corrected): `unblock ∘ block` restores the store exactly when the
pair was not already blocked beforehand (otherwise the unblock also removes
the pre-existing block), and blocking is idempotent unconditionally. -/
theorem claim_C9 :
    (∀ (pf : PathFinder) (a b : String), pathKey a b ∉ pf.blocked_paths →
      unblock_path (block_path pf a b) a b = pf)
    ∧ (∀ (pf : PathFinder) (a b : String),
        block_path (block_path pf a b) a b = block_path pf a b) := by
  constructor
  · intro pf a b h
    unfold unblock_path block_path
    dsimp only
    rw [Finset.erase_insert h]
  · intro pf a b
    unfold block_path
    dsimp only
    rw [Finset.insert_idem]

/-- C9 witness: blocking and unblocking Library–Computer Lab on the initial
store restores it exactly. -/
theorem claim_C9_witness :
    unblock_path (block_path initialPathFinder ("Library") ("Computer Lab"))
        ("Library") ("Computer Lab") = initialPathFinder :=
  claim_C9.1 initialPathFinder ("Library") ("Computer Lab") (by decide)

/-- C9 counterexample: if the pair was already blocked before the round
trip, the unblock removes that prior block too, so a later query differs —
Main Gate → Computer Lab goes from the `570` detour to the direct `417`. -/
theorem claim_C9_counterexample :
    (dijkstra (unblock_path (block_path
        (⟨campusGraph, {(("Computer Lab" : String), ("Library" : String))}, ∅⟩ : PathFinder)
        ("Library") ("Computer Lab")) ("Library") ("Computer Lab"))
      ("Main Gate") ("Computer Lab") TimeOfDay.morning false true).distance
    ≠ (dijkstra
        (⟨campusGraph, {(("Computer Lab" : String), ("Library" : String))}, ∅⟩ : PathFinder)
        ("Main Gate") ("Computer Lab") TimeOfDay.morning false true).distance := by
  decide

/-- C10: the query wrappers are read-only — they hand back the constraint
store unchanged — and repeating a query against the same store returns an
identical result. -/
theorem claim_C10 : ∀ (pf : PathFinder) (s e : String) (t : TimeOfDay)
    (em track : Bool),
    (api_find_path pf s e t em track).2 = pf
    ∧ (api_nearest_exit pf s t).2 = pf
    ∧ (api_find_path (api_find_path pf s e t em track).2 s e t em track).1
        = (api_find_path pf s e t em track).1
    ∧ (api_nearest_exit (api_nearest_exit pf s t).2 s t).1
        = (api_nearest_exit pf s t).1 :=
  fun _ _ _ _ _ _ => ⟨rfl, rfl, rfl, rfl⟩
